import Mathlib

/-!
Verification model of the StockAI-Trader data hub: the fetch orchestrator
(src/datahub/fetcher.py), the tier-3 file cache (src/datahub/cache.py), the
tier-1/2 cache manager (src/infra/cache_store.py), the rate limiter
(src/infra/rate_limit.py) and the provider resolver.

Shallow embedding conventions:
- Instants are epoch seconds (Int), already normalized to UTC; the pandas
  timezone conversions in _normalize_dataframe act on absolute instants and
  are therefore modelled as the identity on instants.
- A table row is a list of cells; a cell is an Option Int, with none playing
  the role of NaN (pandas groupby(level=0).last() skips nulls per column).
  Tables are modelled after column alignment, so the column-label operations
  (title casing, duplicate-column dropping) do not appear.
- The tier-1/tier-2 key/value stores (Redis and MongoDB) are collapsed into
  one keyed hot store with per-entry expiry, matching CacheManager where both
  adapters receive the same payload and the first hit wins; the JSON
  round-trip (to_json orient=split / read_json) is modelled as the identity
  on stored tables.
- The rate limiter is modelled over the rationals; time.monotonic readings
  become rational time stamps.
-/

namespace StockAI

/-! ## ASCII string helpers (kernel-friendly versions of str.upper/lower/strip) -/

def asciiUpper (s : String) : String := String.mk (s.data.map Char.toUpper)

def asciiLower (s : String) : String := String.mk (s.data.map Char.toLower)

def replaceSlash (s : String) : String :=
  String.mk (s.data.map (fun c => if c = '/' then '_' else c))

def asciiTrim (s : String) : String :=
  String.mk (((s.data.dropWhile Char.isWhitespace).reverse.dropWhile Char.isWhitespace).reverse)

/-! ## Candle tables -/

/-- A cell of a candle table; none models NaN / a missing value. -/
abbrev Cell := Option Int

/-- One row of a candle table after column alignment. -/
abbrev Row := List Cell

/-- A candle table: rows keyed by their UTC instant (epoch seconds). -/
abbrev Table := List (Int × Row)

/-- Sorted-by-instant check (non-strict), matching df.sort_index. -/
def sortedLe : Table → Bool
  | [] => true
  | [_] => true
  | x :: y :: xs => decide (x.1 ≤ y.1) && sortedLe (y :: xs)

/-- Strictly-increasing-instants check: the Candle Table invariant. -/
def strictInc : Table → Bool
  | [] => true
  | [_] => true
  | x :: y :: xs => decide (x.1 < y.1) && strictInc (y :: xs)

/-- Stable insertion of a row into a sorted table: the inserted row comes
before every row with an instant greater than or equal to its own, which is
what keeps the sort stable when the inserted row precedes the others. -/
def insertRow (x : Int × Row) : Table → Table
  | [] => [x]
  | y :: ys => if x.1 ≤ y.1 then x :: y :: ys else y :: insertRow x ys

/-- Stable sort by instant, modelling pandas sort_index. -/
def sortTable : Table → Table
  | [] => []
  | x :: xs => insertRow x (sortTable xs)

/-- Keep only the last occurrence of each instant, in order: pandas
index.duplicated(keep="last") negated. -/
def dedupKeepLast : Table → Table
  | [] => []
  | x :: xs => if xs.any (fun y => y.1 == x.1) then dedupKeepLast xs else x :: dedupKeepLast xs

/-- Per-column conflict resolution used by groupby(level=0).last(): the later
value wins unless it is null. -/
def lastNonNull (a b : Cell) : Cell :=
  match b with
  | some v => some v
  | none => a

/-- Combine two rows at the same instant, later row second. -/
def combineRows (r1 r2 : Row) : Row := List.zipWith lastNonNull r1 r2

/-- Spine of groupLast: fold the current row into runs of equal instants. -/
def groupLastGo (cur : Int × Row) : Table → Table
  | [] => [cur]
  | y :: ys =>
      if cur.1 = y.1 then groupLastGo (cur.1, combineRows cur.2 y.2) ys
      else cur :: groupLastGo y ys

/-- Collapse adjacent rows with equal instants, keeping per column the last
non-null value: pandas combined.groupby(level=0).last() on a sorted frame. -/
def groupLast : Table → Table
  | [] => []
  | x :: xs => groupLastGo x xs

theorem groupLast_cons_cons (x y : Int × Row) (xs : Table) :
    groupLast (x :: y :: xs) =
      if x.1 = y.1 then groupLast ((x.1, combineRows x.2 y.2) :: xs)
      else x :: groupLast (y :: xs) := by
  by_cases h : x.1 = y.1 <;> simp [groupLast, groupLastGo, h]

/-- Normalization of a fetched or cached frame (_normalize_dataframe): empty
frames pass through; otherwise sort by instant and drop duplicate instants
keeping the last row. Timezone conversion is identity on absolute instants. -/
def normalizeTable (t : Table) : Table :=
  if t.isEmpty then t else dedupKeepLast (sortTable t)

/-- Clip a table to the requested [start, end] range (_clip_dataframe). -/
def clipTable (t : Table) (start? end? : Option Int) : Table :=
  let afterStart := match start? with
    | some s => t.filter (fun x => decide (s ≤ x.1))
    | none => t
  match end? with
  | some e => afterStart.filter (fun x => decide (x.1 ≤ e))
  | none => afterStart

/-- Last instant of a table (df.index[-1]), if any. -/
def lastInstant (t : Table) : Option Int := (t.map (·.1)).getLast?

/-! ## TTLs and freshness (fetcher.py) -/

/-- INTERVAL_TTL with the 24h default of _select_cache, in seconds. -/
def intervalTtl (interval : String) : Int :=
  if interval = "1m" then 60
  else if interval = "5m" then 60 * 3
  else if interval = "15m" then 60 * 10
  else if interval = "1h" then 60 * 45
  else if interval = "1d" then 60 * 60 * 6
  else 60 * 60 * 24

/-- PROVIDER_TTL_OVERRIDES. -/
def providerTtlOverride (provider interval : String) : Option Int :=
  if provider = "akshare" then
    if interval = "1m" then some 45
    else if interval = "5m" then some (60 * 2)
    else if interval = "15m" then some (60 * 10)
    else if interval = "30m" then some (60 * 15)
    else if interval = "1h" then some (60 * 30)
    else none
  else if provider = "akshare_us" then
    if interval = "1d" then some (60 * 60 * 6) else none
  else none

/-- TTL of the tier-3 cache selected by _select_cache. -/
def selectCacheTtl (interval provider : String) : Int :=
  (providerTtlOverride provider interval).getD (intervalTtl interval)

/-- Tier-1/2 TTL configuration of CacheManager (TTL_QUOTE_FAST and friends,
with their documented defaults). -/
structure CacheCfg where
  ttlQuoteFast : Int := 30
  ttlIntraday : Int := 60
  ttlDaily : Int := 3600
  ttlFundamental : Int := 21600
deriving DecidableEq

/-- CacheManager.ttl_for_interval. -/
def ttlForInterval (cfg : CacheCfg) (interval : String) : Int :=
  let i := asciiLower interval
  if i = "tick" ∨ i = "1s" then cfg.ttlQuoteFast
  else if i = "1m" ∨ i = "5m" ∨ i = "15m" ∨ i = "30m" then cfg.ttlIntraday
  else if i = "1h" ∨ i = "2h" ∨ i = "4h" then max cfg.ttlIntraday 300
  else cfg.ttlDaily

/-- Expected bar spacing used by _needs_refresh, in seconds. -/
def expectedDelta (interval : String) : Int :=
  if interval = "1m" then 60
  else if interval = "5m" then 60 * 5
  else if interval = "15m" then 60 * 15
  else if interval = "1h" then 60 * 60
  else if interval = "1d" then 60 * 60 * 24
  else 60 * 60 * 24

/-- The freshness heuristic _needs_refresh: an empty frame always refreshes;
a frame whose last instant reaches end - delta is fresh; otherwise the frame
refreshes exactly when its last instant is more than two bar spacings old. -/
def needsRefresh (t : Table) (interval : String) (end? : Option Int) (now : Int) : Bool :=
  match lastInstant t with
  | none => true
  | some last =>
      let d := expectedDelta interval
      let tol := 2 * d
      if (match end? with | some e => decide (e - d ≤ last) | none => false) then false
      else if tol < now - last then true
      else false

/-! ## Cache world: tier-1/2 hot store and tier-3 file store -/

/-- Key of the hot store, CacheManager.make_key with its case normalization
(provider lowered, ticker uppered, interval lowered); kept as components so
that the key structure stays visible. -/
structure HotKey where
  provider : String
  ticker : String
  interval : String
deriving DecidableEq

def makeHotKey (provider ticker interval : String) : HotKey :=
  { provider := asciiLower provider, ticker := asciiUpper ticker, interval := asciiLower interval }

/-- One hot-store entry: the stored table plus its expiry instant (setex). -/
structure HotEntry where
  table : Table
  expiresAt : Int
deriving DecidableEq

/-- Key of a tier-3 artifact: DataCache._base_path components
(provider lowered with / replaced, interval, ticker uppered with / replaced). -/
structure DiskKey where
  provider : String
  timeframe : String
  ticker : String
deriving DecidableEq

def makeDiskKey (ticker timeframe provider : String) : DiskKey :=
  { provider := asciiLower (replaceSlash provider)
    timeframe := timeframe
    ticker := asciiUpper (replaceSlash ticker) }

/-- A tier-3 entry: the primary parquet artifact, the csv fallback and the
sidecar metadata. An outer none means the file does not exist; an inner none
means the file exists but cannot be deserialized (for meta: is malformed). -/
structure DiskEntry where
  parquet : Option (Option Table) := none
  csv : Option (Option Table) := none
  meta : Option (Option Int) := none
deriving DecidableEq

/-- Association-list lookup. -/
def lookupA {κ α : Type} [DecidableEq κ] (k : κ) : List (κ × α) → Option α
  | [] => none
  | kv :: rest => if kv.1 = k then some kv.2 else lookupA k rest

/-- Association-list overwrite. -/
def insertA {κ α : Type} [DecidableEq κ] (k : κ) (v : α) (l : List (κ × α)) : List (κ × α) :=
  (k, v) :: l.filter (fun kv => !decide (kv.1 = k))

/-- The cache world: tier-1/2 hot store, tier-3 file store, the enablement of
the hot tier (CACHE_ENABLED together with a reachable Redis or MongoDB) and
the availability of the binary codec for tier-3 writes (pyarrow present). -/
structure World where
  hotEnabled : Bool
  parquetOk : Bool
  cfg : CacheCfg
  hot : List (HotKey × HotEntry)
  disk : List (DiskKey × DiskEntry)
deriving DecidableEq

/-- CacheManager.load_dataframe: first hit among the tier-1/2 adapters,
deserialization modelled as identity; expired entries are absent. -/
def hotLoadDf (w : World) (provider ticker interval : String) (now : Int) : Option Table :=
  if !w.hotEnabled then none
  else match lookupA (makeHotKey provider ticker interval) w.hot with
    | none => none
    | some e => if now < e.expiresAt then some e.table else none

/-- CacheManager.store_dataframe: skipped when the tier is disabled, the frame
is empty or the ttl is nonpositive; otherwise both adapters receive the
serialized frame, modelled as one keyed write with expiry now + ttl. -/
def hotStoreDf (w : World) (provider ticker interval : String) (df : Table) (ttl now : Int) : World :=
  if !w.hotEnabled || df.isEmpty then w
  else if ttl ≤ 0 then w
  else { w with hot := insertA (makeHotKey provider ticker interval) ⟨df, now + ttl⟩ w.hot }

/-- Failure modes of DataCache.load: _read_dataframe raising FileNotFoundError
on an existing-but-undeserializable parquet artifact, and pd.read_csv raising
on an unreadable csv fallback. -/
inductive CacheErr where
  | fileNotFound
  | csvReadError
deriving DecidableEq

/-- DataCache.is_stale on an existing entry: a missing or malformed sidecar is
stale; otherwise the entry is stale once its age reaches the ttl. -/
def diskIsStale (e : DiskEntry) (ttl now : Int) : Bool :=
  match e.meta with
  | none => true
  | some none => true
  | some (some cachedAt) => decide (ttl ≤ now - cachedAt)

/-- DataCache.load (legacy directory layout absent): miss when no artifact
exists or the entry is stale; otherwise read the parquet artifact when it
exists - raising when it cannot be deserialized, because _read_dataframe only
falls through to a path whose own suffix is .csv - else read the csv. -/
def diskLoad (w : World) (ticker timeframe provider : String) (ttl now : Int) :
    Except CacheErr (Option Table) :=
  match lookupA (makeDiskKey ticker timeframe provider) w.disk with
  | none => .ok none
  | some e =>
      if e.parquet.isNone && e.csv.isNone then .ok none
      else if diskIsStale e ttl now then .ok none
      else match e.parquet with
        | some (some t) => .ok (some t)
        | some none => .error .fileNotFound
        | none =>
            match e.csv with
            | some (some t) => .ok (some t)
            | some none => .error .csvReadError
            | none => .ok none

/-- DataCache.store: empty frames are skipped entirely; otherwise the frame is
written to the parquet artifact (or the csv fallback when the binary codec is
unavailable) and the sidecar metadata records the write instant. The artifact
not written keeps whatever was there before. -/
def diskStore (w : World) (ticker timeframe : String) (df : Table) (provider : String) (now : Int) :
    World :=
  if df.isEmpty then w
  else
    let k := makeDiskKey ticker timeframe provider
    let old := (lookupA k w.disk).getD {}
    let e :=
      if w.parquetOk then { old with parquet := some (some df), meta := some (some now) }
      else { old with csv := some (some df), meta := some (some now) }
    { w with disk := insertA k e w.disk }

/-! ## The fetch orchestrator (get_latest_candles) -/

/-- Outcome of one provider.fetch_candles call made by the orchestrator:
success with a frame, a ProviderError, or an unexpected exception. -/
inductive FetchOutcome where
  | ok (t : Table)
  | providerError
  | unexpectedError
deriving DecidableEq

/-- A resolved provider as the orchestrator sees it: its name and the outcome
its fetch_candles would produce for the call at hand. -/
structure ProviderSpec where
  name : String
  fetch : FetchOutcome
deriving DecidableEq

/-- Arguments of get_latest_candles. -/
structure FetchArgs where
  ticker : String
  start? : Option Int := none
  end? : Option Int := none
  interval : String := "1d"
  useCache : Bool := true
  forceRefresh : Bool := false
deriving DecidableEq

/-- Result of the cache-probe phase for one provider (fetcher.py lines
148-174): an early return with a fresh table, or a miss carrying whatever
stale cached table was found. -/
inductive Probe where
  | hit (t : Table)
  | miss (cached : Option Table)
deriving DecidableEq

/-- Disk half of the cache probe: load the tier-3 entry, backfill the hot tier
with it, and return early when it passes the freshness check. -/
def probeDisk (p : ProviderSpec) (a : FetchArgs) (interval : String) (cached : Option Table)
    (w : World) (now : Int) : Except CacheErr (Probe × World) :=
  match diskLoad w a.ticker interval p.name (selectCacheTtl interval p.name) now with
  | .error e => .error e
  | .ok none => .ok (.miss cached, w)
  | .ok (some d) =>
      let d := normalizeTable d
      let w := hotStoreDf w p.name a.ticker interval d (ttlForInterval w.cfg interval) now
      if !a.forceRefresh && !needsRefresh d interval a.end? now then .ok (.hit d, w)
      else .ok (.miss (some d), w)

/-- Cache-probe phase for one provider: hot tier first (skipped when forcing
refresh), then the tier-3 disk cache. -/
def cacheProbe (p : ProviderSpec) (a : FetchArgs) (interval : String) (w : World) (now : Int) :
    Except CacheErr (Probe × World) :=
  if !a.useCache then .ok (.miss none, w)
  else
    match (if a.forceRefresh then none else hotLoadDf w p.name a.ticker interval now) with
    | some h =>
        let h := normalizeTable h
        if !needsRefresh h interval a.end? now then .ok (.hit h, w)
        else probeDisk p a interval (some h) w now
    | none => probeDisk p a interval none w now

/-- The merged table a successful fetch would persist (fetcher.py lines
204-217): the fresh frame re-sorted and deduplicated keeping the last row,
outer-merged over any stale cached rows with groupby(level=0).last(). -/
def mergeCandidate (cached : Option Table) (fresh : Table) : Table :=
  let df := dedupKeepLast (sortTable (normalizeTable fresh))
  match cached with
  | some c =>
      if c.isEmpty then df
      else groupLast (sortTable (dedupKeepLast c ++ df))
  | none => df

/-- Fetch phase for one provider: on failure degrade to the non-empty cached
table if any, else move on; on success merge, skip empty results, and write
the merged table through both cache tiers. Returns the unclipped table to
return together with its source tag, or none to continue with the next
provider. -/
def fetchPhase (p : ProviderSpec) (a : FetchArgs) (interval : String) (cached : Option Table)
    (w : World) (now : Int) : Option (Table × String) × World :=
  match p.fetch with
  | .providerError | .unexpectedError =>
      match cached with
      | some c => if c.isEmpty then (none, w) else (some (c, p.name), w)
      | none => (none, w)
  | .ok fresh =>
      let df := mergeCandidate cached fresh
      if df.isEmpty then (none, w)
      else
        let w := diskStore w a.ticker interval df p.name now
        let w := hotStoreDf w p.name a.ticker interval df (ttlForInterval w.cfg interval) now
        (some (df, p.name), w)

/-- What get_latest_candles returns: the clipped table, its source tag (absent
only for the empty exhaustion table) and, as bookkeeping for the spec claims,
the names of the providers whose fetch_candles was actually invoked. -/
structure FetchResult where
  table : Table
  source : Option String
  calls : List String
deriving DecidableEq

/-- The provider loop of get_latest_candles over an already resolved provider
sequence. -/
def runProviders (ps : List ProviderSpec) (a : FetchArgs) (interval : String) (w : World)
    (now : Int) : Except CacheErr (FetchResult × World) :=
  match ps with
  | [] => .ok ({ table := [], source := none, calls := [] }, w)
  | p :: rest =>
      match cacheProbe p a interval w now with
      | .error e => .error e
      | .ok (.hit t, w1) =>
          .ok ({ table := clipTable t a.start? a.end?, source := some p.name, calls := [] }, w1)
      | .ok (.miss cached, w1) =>
          match fetchPhase p a interval cached w1 now with
          | (some (tab, src), w2) =>
              .ok ({ table := clipTable tab a.start? a.end?, source := some src,
                     calls := [p.name] }, w2)
          | (none, w2) =>
              match runProviders rest a interval w2 now with
              | .error e => .error e
              | .ok (r, w3) => .ok ({ r with calls := p.name :: r.calls }, w3)

/-- The effective interval: the source replaces a falsy interval argument by
"1d" (interval = interval or "1d"). -/
def effInterval (a : FetchArgs) : String :=
  if a.interval = "" then "1d" else a.interval

/-- get_latest_candles for a resolved provider sequence: normalize the empty
interval to "1d" and run the provider loop. -/
def getLatestCandles (a : FetchArgs) (ps : List ProviderSpec) (w : World) (now : Int) :
    Except CacheErr (FetchResult × World) :=
  runProviders ps a (effInterval a) w now

/-- Worker loop of get_candles_batch: one single-instrument fetch per ticker
in submission order, each result assigned into the ticker-keyed mapping (a
later duplicate overwrites an earlier one, like the dict write). A raised
exception propagates through asyncio.gather and aborts the batch. -/
def batchGo (a : FetchArgs) (ps : List ProviderSpec) (now : Int) :
    List String → List (String × Table) → World → Except CacheErr (List (String × Table) × World)
  | [], acc, w => .ok (acc, w)
  | t :: rest, acc, w =>
      match getLatestCandles { a with ticker := t } ps w now with
      | .error e => .error e
      | .ok (r, w1) => batchGo a ps now rest (insertA t r.table acc) w1

/-- get_candles_batch: fan the single-instrument fetch out over the tickers
under the concurrency semaphore, collecting results into a mapping; modelled
in submission order. -/
def getCandlesBatch (tickers : List String) (a : FetchArgs) (ps : List ProviderSpec) (w : World)
    (now : Int) : Except CacheErr (List (String × Table) × World) :=
  batchGo a ps now tickers [] w

/-! ## Rate limiter (infra/rate_limit.py), over the rationals -/

/-- TokenBucket state: capacity, current tokens, refill rate in tokens per
second, and the monotonic instant of the last refill. -/
structure Bucket where
  capacity : ℚ
  tokens : ℚ
  refillRate : ℚ
  updatedAt : ℚ
deriving DecidableEq

/-- RateLimiter._bucket_for creating a fresh bucket for a configured
requests-per-minute value: TokenBucket(max(rpm, 1), rpm/60 if positive else
1.0), initially full. -/
def bucketFor (rpm : Int) (now : ℚ) : Bucket :=
  let refill : ℚ := if 0 < rpm then (rpm : ℚ) / 60 else 0
  { capacity := max (rpm : ℚ) 1
    tokens := max (rpm : ℚ) 1
    refillRate := if 0 < refill then refill else 1
    updatedAt := now }

/-- The refill step at the top of TokenBucket.acquire: advance updated_at and
add elapsed * refill_rate tokens, capped at capacity. -/
def refillAt (b : Bucket) (now : ℚ) : Bucket :=
  let elapsed := now - b.updatedAt
  let b1 := { b with updatedAt := now }
  if 0 < elapsed then { b1 with tokens := min b1.capacity (b1.tokens + elapsed * b1.refillRate) }
  else b1

/-- One iteration of the acquire loop: either a token is consumed, or the
caller is told to sleep for the computed bounded duration. -/
inductive AcqStep where
  | acquired (b : Bucket)
  | sleep (d : ℚ) (b : Bucket)
deriving DecidableEq

/-- One pass through the body of TokenBucket.acquire at monotonic instant now:
refill, consume a token when at least one is available, otherwise sleep for
min(max((1 - tokens)/refill_rate, 0.05), 5.0) seconds and retry. -/
def acquireStep (b : Bucket) (now : ℚ) : AcqStep :=
  let b1 := refillAt b now
  if 1 ≤ b1.tokens then .acquired { b1 with tokens := b1.tokens - 1 }
  else
    let waitFor := if 0 < b1.refillRate then (1 - b1.tokens) / b1.refillRate else 1
    .sleep (min (max waitFor (1 / 20)) 5) b1

/-- A sequence of acquire-loop passes at the given monotonic instants,
returning the final bucket and how many tokens were consumed. -/
def runAcquires (b : Bucket) : List ℚ → Bucket × Nat
  | [] => (b, 0)
  | t :: ts =>
      match acquireStep b t with
      | .acquired b1 => let r := runAcquires b1 ts; (r.1, r.2 + 1)
      | .sleep _ b1 => runAcquires b1 ts

/-! ## Provider resolver (_resolve_providers) -/

/-- Interval support of a registered provider, as data so that provider values
stay decidably comparable: YFinance supports every interval, the others a
finite set. -/
inductive SupportsKind where
  | all
  | only (intervals : List String)
deriving DecidableEq

/-- A provider as the resolver sees it. -/
structure RProvider where
  name : String
  kind : SupportsKind
deriving DecidableEq

/-- CandleProvider.supports. -/
def supportsP (p : RProvider) (interval : String) : Bool :=
  match p.kind with
  | .all => true
  | .only l => l.contains interval

/-- The universal fallback provider: YFinanceProvider supports every interval. -/
def defaultYFinance : RProvider := { name := "yfinance", kind := .all }

/-- The registered tushare intervals (_FREQ_MAP keys). -/
def tushareIntervals : List String := ["1m", "5m", "15m", "30m", "60m", "1h", "1d"]

/-- The registered akshare intervals (_MINUTE_MAP keys plus 1d). -/
def akshareIntervals : List String := ["1m", "5m", "15m", "30m", "1h", "1d"]

/-- The registered akshare_us intervals. -/
def akshareUsIntervals : List String := ["1d"]

/-- Whether a provider with the given name is already in the list. -/
def hasName (l : List RProvider) (nm : String) : Bool :=
  l.any (fun q => q.name == nm)

/-- _maybe_add: append the provider when it supports the interval and is not
already present. Presence is by instance identity in the source; the registry
maps distinct names to distinct instances, so it is name equality here. -/
def maybeAdd (interval : String) (p : RProvider) (ordered : List RProvider) : List RProvider :=
  if supportsP p interval && !hasName ordered p.name then ordered ++ [p]
  else ordered

/-- Registry lookup by name (registry.get(name)). -/
def lookupByName (registry : List RProvider) (n : String) : Option RProvider :=
  registry.find? (fun p => p.name == n)

/-- The preferred-provider environment overrides consumed by the resolver. -/
structure ResolveEnv where
  aPrimary : Option String := none
  aSecondary : Option String := none
  hkPrimary : Option String := none
  hkSecondary : Option String := none
  usPrimary : Option String := none
  usSecondary : Option String := none
deriving DecidableEq

/-- _env_provider_list: keep the set variables, stripped and lowered, dropping
names that are empty before or after stripping. -/
def envProviderList (vals : List (Option String)) : List String :=
  (vals.filterMap (fun v => match v with
    | none => none
    | some s => if s = "" then none else some (asciiLower (asciiTrim s)))).filter
    (fun s => !(s = ""))

/-- Splitting at the first dot, python split(".", 1): base and suffix. -/
def splitFirstDot (l : List Char) : Option (List Char × List Char) :=
  match l with
  | [] => none
  | c :: cs =>
      if c = '.' then some ([], cs)
      else match splitFirstDot cs with
        | some (b, s) => some (c :: b, s)
        | none => none

/-- The component after the last dot, python split(".")[-1]: the characters
after the last dot, or the whole list when no dot occurs. -/
def lastDotComponent (l : List Char) : List Char :=
  (l.reverse.takeWhile (fun c => !(c = '.'))).reverse

/-- Whether one char list ends with another. -/
def endsWithL (l suffix : List Char) : Bool :=
  decide (l.length ≥ suffix.length) && decide (l.drop (l.length - suffix.length) = suffix)

/-- _is_china_equity. -/
def isChinaEquity (ticker : String) : Bool :=
  let symbol := asciiLower (asciiTrim ticker)
  let cs := symbol.data
  if symbol.data.take 2 = ['s', 'h'] ∨ symbol.data.take 2 = ['s', 'z'] ∨
      symbol.data.take 2 = ['b', 'j'] then true
  else
    let dotHit :=
      match splitFirstDot cs with
      | none => false
      | some (_, suf) =>
          let s := String.mk suf
          s = "ss" ∨ s = "sh" ∨ s = "sz" ∨ s = "bj" ∨ s = "cn" ∨ s = "szse"
    if dotHit then true
    else if cs.length = 6 ∧ cs.all Char.isDigit then true
    else false

/-- _is_us_equity. -/
def isUsEquity (ticker : String) : Bool :=
  let symbol := asciiUpper (asciiTrim ticker)
  let cs := symbol.data
  if isChinaEquity symbol then false
  else if endsWithL cs ".HK".data ∨ endsWithL cs ".SS".data ∨ endsWithL cs ".SZ".data ∨
      endsWithL cs ".BJ".data then false
  else if (!cs.isEmpty && cs.all Char.isAlpha) && decide (1 ≤ cs.length ∧ cs.length ≤ 5) then true
  else
    if cs.contains '.' then
      let suf := String.mk (lastDotComponent cs)
      suf = "O" ∨ suf = "N" ∨ suf = "A" ∨ suf = "K" ∨ suf = "Q"
    else false

/-- Fold _maybe_add over requested names resolved against the registry,
skipping unknown names. -/
def addRequested (registry : List RProvider) (interval : String) :
    List String → List RProvider → List RProvider
  | [], acc => acc
  | n :: ns, acc =>
      match lookupByName registry n with
      | none => addRequested registry interval ns acc
      | some p => addRequested registry interval ns (maybeAdd interval p acc)

/-- The ordered list built by _resolve_providers before the final
yfinance-fallback guard. -/
def resolveCore (registry : List RProvider) (env : ResolveEnv) (ticker interval : String)
    (requested : Option (List String)) : List RProvider :=
  match requested with
  | some req =>
      if !req.isEmpty then addRequested registry interval req []
      else resolveHeuristic registry env ticker interval
  | none => resolveHeuristic registry env ticker interval
where
  resolveHeuristic (registry : List RProvider) (env : ResolveEnv) (ticker interval : String) :
      List RProvider :=
    let tickerUpper := asciiUpper ticker
    let pf :=
      if isChinaEquity ticker then
        (envProviderList [env.aPrimary, env.aSecondary],
         ["tushare", "akshare", "yfinance", "akshare_us"])
      else if endsWithL tickerUpper.data ".HK".data then
        (envProviderList [env.hkPrimary, env.hkSecondary],
         ["yfinance", "akshare", "akshare_us", "tushare"])
      else if isUsEquity ticker then
        (envProviderList [env.usPrimary, env.usSecondary],
         ["yfinance", "akshare_us", "akshare", "tushare"])
      else ([], ["yfinance", "akshare", "akshare_us", "tushare"])
    let preferred := if pf.1.isEmpty then pf.2 else pf.1
    let step1 := addRequested registry interval preferred []
    registry.foldl (fun acc p => maybeAdd interval p acc) step1

/-- _resolve_providers: the ordered candidate list, with a fresh universal
YFinanceProvider as last-resort fallback so the result is never empty. -/
def resolveProviders (registry : List RProvider) (env : ResolveEnv) (ticker interval : String)
    (requested : Option (List String)) : List RProvider :=
  let ordered := resolveCore registry env ticker interval requested
  if ordered.isEmpty then [defaultYFinance] else ordered

/-! ## Lemmas: sorting, deduplication and the merge -/

theorem sortedLe_tail {x : Int × Row} {xs : Table} (h : sortedLe (x :: xs) = true) :
    sortedLe xs = true := by
  cases xs with
  | nil => rfl
  | cons y ys => simp only [sortedLe, Bool.and_eq_true] at h; exact h.2

theorem sortedLe_cons_le {x : Int × Row} {xs : Table} (h : sortedLe (x :: xs) = true) :
    ∀ y ∈ xs, x.1 ≤ y.1 := by
  induction xs generalizing x with
  | nil => intro y hy; cases hy
  | cons z zs ih =>
      intro y hy
      simp only [sortedLe, Bool.and_eq_true, decide_eq_true_eq] at h
      rcases List.mem_cons.mp hy with hyz | hyzs
      · exact hyz ▸ h.1
      · exact le_trans h.1 (ih h.2 y hyzs)

theorem sortedLe_cons_of {x : Int × Row} {xs : Table} (hxs : sortedLe xs = true)
    (hle : ∀ y ∈ xs, x.1 ≤ y.1) : sortedLe (x :: xs) = true := by
  cases xs with
  | nil => rfl
  | cons z zs =>
      simp only [sortedLe, Bool.and_eq_true, decide_eq_true_eq]
      exact ⟨hle z (List.mem_cons_self z zs), hxs⟩

theorem strictInc_tail {x : Int × Row} {xs : Table} (h : strictInc (x :: xs) = true) :
    strictInc xs = true := by
  cases xs with
  | nil => rfl
  | cons y ys => simp only [strictInc, Bool.and_eq_true] at h; exact h.2

theorem strictInc_cons_lt {x : Int × Row} {xs : Table} (h : strictInc (x :: xs) = true) :
    ∀ y ∈ xs, x.1 < y.1 := by
  induction xs generalizing x with
  | nil => intro y hy; cases hy
  | cons z zs ih =>
      intro y hy
      simp only [strictInc, Bool.and_eq_true, decide_eq_true_eq] at h
      rcases List.mem_cons.mp hy with hyz | hyzs
      · exact hyz ▸ h.1
      · exact lt_trans h.1 (ih h.2 y hyzs)

theorem strictInc_cons_of {x : Int × Row} {xs : Table} (hxs : strictInc xs = true)
    (hlt : ∀ y ∈ xs, x.1 < y.1) : strictInc (x :: xs) = true := by
  cases xs with
  | nil => rfl
  | cons z zs =>
      simp only [strictInc, Bool.and_eq_true, decide_eq_true_eq]
      exact ⟨hlt z (List.mem_cons_self z zs), hxs⟩

theorem sortedLe_of_strictInc {t : Table} (h : strictInc t = true) : sortedLe t = true := by
  induction t with
  | nil => rfl
  | cons x xs ih =>
      exact sortedLe_cons_of (ih (strictInc_tail h))
        (fun y hy => le_of_lt (strictInc_cons_lt h y hy))

theorem mem_insertRow {x y : Int × Row} {l : Table} :
    y ∈ insertRow x l ↔ y = x ∨ y ∈ l := by
  induction l with
  | nil => simp [insertRow]
  | cons z zs ih =>
      by_cases hle : x.1 ≤ z.1
      · simp only [insertRow, if_pos hle]
        exact List.mem_cons
      · simp only [insertRow, if_neg hle, List.mem_cons, ih]
        tauto

theorem sortedLe_insertRow {x : Int × Row} {l : Table} (h : sortedLe l = true) :
    sortedLe (insertRow x l) = true := by
  induction l with
  | nil => rfl
  | cons z zs ih =>
      by_cases hle : x.1 ≤ z.1
      · simp only [insertRow, if_pos hle]
        refine sortedLe_cons_of h ?_
        intro y hy
        rcases List.mem_cons.mp hy with rfl | hyzs
        · exact hle
        · exact le_trans hle (sortedLe_cons_le h y hyzs)
      · simp only [insertRow, if_neg hle]
        refine sortedLe_cons_of (ih (sortedLe_tail h)) ?_
        intro y hy
        rcases mem_insertRow.mp hy with rfl | hyzs
        · exact le_of_lt (lt_of_not_le hle)
        · exact sortedLe_cons_le h y hyzs

theorem sortedLe_sortTable (l : Table) : sortedLe (sortTable l) = true := by
  induction l with
  | nil => rfl
  | cons x xs ih => exact sortedLe_insertRow ih

theorem mem_sortTable {y : Int × Row} {l : Table} : y ∈ sortTable l ↔ y ∈ l := by
  induction l with
  | nil => simp [sortTable]
  | cons x xs ih => simp [sortTable, mem_insertRow, ih]

theorem sortTable_eq_of_sorted {l : Table} (h : sortedLe l = true) : sortTable l = l := by
  induction l with
  | nil => rfl
  | cons x xs ih =>
      have hxs := ih (sortedLe_tail h)
      simp only [sortTable, hxs]
      cases xs with
      | nil => rfl
      | cons y ys =>
          have hle : x.1 ≤ y.1 := sortedLe_cons_le h y (List.mem_cons_self y ys)
          simp [insertRow, if_pos hle]

theorem mem_dedupKeepLast {y : Int × Row} {l : Table} (h : y ∈ dedupKeepLast l) : y ∈ l := by
  induction l with
  | nil => cases h
  | cons x xs ih =>
      by_cases hany : xs.any (fun z => z.1 == x.1)
      · simp only [dedupKeepLast, if_pos hany] at h
        exact List.mem_cons_of_mem x (ih h)
      · simp only [dedupKeepLast, if_neg hany] at h
        rcases List.mem_cons.mp h with rfl | hmem
        · exact List.mem_cons_self y xs
        · exact List.mem_cons_of_mem x (ih hmem)

theorem strictInc_dedupKeepLast {l : Table} (h : sortedLe l = true) :
    strictInc (dedupKeepLast l) = true := by
  induction l with
  | nil => rfl
  | cons x xs ih =>
      by_cases hany : xs.any (fun z => z.1 == x.1)
      · simp only [dedupKeepLast, if_pos hany]
        exact ih (sortedLe_tail h)
      · simp only [dedupKeepLast, if_neg hany]
        refine strictInc_cons_of (ih (sortedLe_tail h)) ?_
        intro y hy
        have hymem := mem_dedupKeepLast hy
        have hle := sortedLe_cons_le h y hymem
        have hne : ¬(y.1 = x.1) := by
          intro heq
          exact hany (List.any_eq_true.mpr ⟨y, hymem, by simp [heq]⟩)
        exact lt_of_le_of_ne hle (fun hxy => hne hxy.symm)

theorem dedupKeepLast_eq_of_strictInc {l : Table} (h : strictInc l = true) :
    dedupKeepLast l = l := by
  induction l with
  | nil => rfl
  | cons x xs ih =>
      have hany : ¬(xs.any (fun z => z.1 == x.1)) := by
        intro hcontra
        rcases List.any_eq_true.mp hcontra with ⟨z, hz, hzx⟩
        have := strictInc_cons_lt h z hz
        simp only [beq_iff_eq] at hzx
        omega
      simp only [dedupKeepLast, if_neg hany]
      rw [ih (strictInc_tail h)]

theorem groupLast_headKey : ∀ l : Table, (groupLast l).head?.map Prod.fst = l.head?.map Prod.fst
  | [] => by simp [groupLast]
  | [x] => by simp [groupLast, groupLastGo]
  | x :: y :: xs => by
      by_cases hxy : x.1 = y.1
      · rw [groupLast_cons_cons, if_pos hxy]
        rw [groupLast_headKey ((x.1, combineRows x.2 y.2) :: xs)]
        rfl
      · rw [groupLast_cons_cons, if_neg hxy]
        rfl
termination_by l => l.length

theorem strictInc_groupLast : ∀ l : Table, sortedLe l = true → strictInc (groupLast l) = true
  | [], _ => by simp [groupLast, strictInc]
  | [x], _ => by simp [groupLast, groupLastGo, strictInc]
  | x :: y :: xs, h => by
      have htail : sortedLe (y :: xs) = true := sortedLe_tail h
      by_cases hxy : x.1 = y.1
      · rw [groupLast_cons_cons, if_pos hxy]
        refine strictInc_groupLast ((x.1, combineRows x.2 y.2) :: xs) ?_
        refine sortedLe_cons_of (sortedLe_tail htail) ?_
        intro z hz
        exact hxy ▸ sortedLe_cons_le htail z hz
      · rw [groupLast_cons_cons, if_neg hxy]
        have hlt : x.1 < y.1 := by
          have := sortedLe_cons_le h y (List.mem_cons_self y xs)
          omega
        have hg := strictInc_groupLast (y :: xs) htail
        have hhead := groupLast_headKey (y :: xs)
        cases hgl : groupLast (y :: xs) with
        | nil => rfl
        | cons g gs =>
            rw [hgl] at hg hhead
            simp only [List.head?, Option.map] at hhead
            have hgkey : g.1 = y.1 := by
              injection hhead with h1
            simp only [strictInc, Bool.and_eq_true, decide_eq_true_eq]
            exact ⟨hgkey ▸ hlt, hg⟩
termination_by l => l.length

theorem groupLast_eq_of_strictInc : ∀ l : Table, strictInc l = true → groupLast l = l
  | [], _ => by simp [groupLast]
  | [x], _ => by simp [groupLast, groupLastGo]
  | x :: y :: xs, h => by
      have hxy : ¬(x.1 = y.1) := by
        have := strictInc_cons_lt h y (List.mem_cons_self y xs)
        omega
      rw [groupLast_cons_cons, if_neg hxy]
      rw [groupLast_eq_of_strictInc (y :: xs) (strictInc_tail h)]
termination_by l => l.length

theorem strictInc_normalizeTable (t : Table) : strictInc (normalizeTable t) = true := by
  by_cases he : t.isEmpty
  · simp only [normalizeTable, if_pos he]
    cases t with
    | nil => rfl
    | cons x xs => simp [List.isEmpty] at he
  · simp only [normalizeTable, if_neg he]
    exact strictInc_dedupKeepLast (sortedLe_sortTable t)

theorem normalizeTable_eq_of_strictInc {t : Table} (h : strictInc t = true) :
    normalizeTable t = t := by
  by_cases he : t.isEmpty
  · simp only [normalizeTable, if_pos he]
  · simp only [normalizeTable, if_neg he]
    rw [sortTable_eq_of_sorted (sortedLe_of_strictInc h), dedupKeepLast_eq_of_strictInc h]

theorem strictInc_mergeCandidate (cached : Option Table) (fresh : Table) :
    strictInc (mergeCandidate cached fresh) = true := by
  have hdf : strictInc (dedupKeepLast (sortTable (normalizeTable fresh))) = true :=
    strictInc_dedupKeepLast (sortedLe_sortTable _)
  cases cached with
  | none => exact hdf
  | some c =>
      by_cases hc : c.isEmpty
      · simp only [mergeCandidate, if_pos hc]
        exact hdf
      · simp only [mergeCandidate, if_neg hc]
        exact strictInc_groupLast _ (sortedLe_sortTable _)

/-! ## Lemmas: per-instant characterization of the merge -/

/-- Rows of a table carrying a given instant, in order. -/
def filterKey (i : Int) (t : Table) : Table := t.filter (fun x => decide (x.1 = i))

/-- First row stored under a given instant. -/
def findRow (i : Int) : Table → Option Row
  | [] => none
  | x :: xs => if x.1 = i then some x.2 else findRow i xs

theorem filterKey_cons (i : Int) (x : Int × Row) (xs : Table) :
    filterKey i (x :: xs) = if x.1 = i then x :: filterKey i xs else filterKey i xs := by
  by_cases h : x.1 = i <;> simp [filterKey, List.filter_cons, h]

theorem filterKey_insertRow (i : Int) (x : Int × Row) (l : Table) :
    filterKey i (insertRow x l) =
      if x.1 = i then x :: filterKey i l else filterKey i l := by
  induction l with
  | nil => by_cases hxi : x.1 = i <;> simp [filterKey, insertRow, hxi]
  | cons y ys ih =>
      by_cases hle : x.1 ≤ y.1
      · simp only [insertRow, if_pos hle]
        rw [filterKey_cons]
      · have hylt : y.1 < x.1 := lt_of_not_le hle
        simp only [insertRow, if_neg hle]
        rw [filterKey_cons, filterKey_cons, ih]
        by_cases hxi : x.1 = i
        · have hyi : ¬(y.1 = i) := by omega
          simp [hxi, hyi]
        · by_cases hyi : y.1 = i <;> simp [hxi, hyi]

theorem filterKey_sortTable (i : Int) (l : Table) : filterKey i (sortTable l) = filterKey i l := by
  induction l with
  | nil => rfl
  | cons x xs ih =>
      simp only [sortTable, filterKey_insertRow, ih, filterKey_cons]

theorem filterKey_append (i : Int) (l1 l2 : Table) :
    filterKey i (l1 ++ l2) = filterKey i l1 ++ filterKey i l2 := by
  simp [filterKey, List.filter_append]

theorem filterKey_nil_of_all_gt {i : Int} {l : Table} (h : ∀ y ∈ l, i < y.1) :
    filterKey i l = [] := by
  induction l with
  | nil => rfl
  | cons x xs ih =>
      have hx := h x (List.mem_cons_self x xs)
      have hxi : ¬(x.1 = i) := by omega
      rw [filterKey_cons, if_neg hxi]
      exact ih (fun y hy => h y (List.mem_cons_of_mem x hy))

theorem findRow_groupLast_spec : ∀ l : Table, sortedLe l = true → ∀ i : Int,
    findRow i (groupLast l) =
      match (filterKey i l).map Prod.snd with
      | [] => none
      | r :: rs => some (rs.foldl combineRows r)
  | [], _, i => by simp [groupLast, findRow, filterKey]
  | [x], _, i => by
      rw [filterKey_cons]
      by_cases hxi : x.1 = i <;> simp [groupLast, groupLastGo, findRow, filterKey, hxi]
  | x :: y :: xs, h, i => by
      have htail : sortedLe (y :: xs) = true := sortedLe_tail h
      by_cases hxy : x.1 = y.1
      · have hsorted : sortedLe ((x.1, combineRows x.2 y.2) :: xs) = true := by
          refine sortedLe_cons_of (sortedLe_tail htail) ?_
          intro z hz
          exact hxy ▸ sortedLe_cons_le htail z hz
        have ih := findRow_groupLast_spec ((x.1, combineRows x.2 y.2) :: xs) hsorted i
        rw [groupLast_cons_cons, if_pos hxy]
        rw [ih]
        rw [filterKey_cons, filterKey_cons, filterKey_cons]
        by_cases hxi : x.1 = i
        · have hyi : y.1 = i := by omega
          simp [hxi, hyi, List.foldl_cons]
        · have hyi : ¬(y.1 = i) := by omega
          simp [hxi, hyi]
      · have ih := findRow_groupLast_spec (y :: xs) htail i
        rw [groupLast_cons_cons, if_neg hxy]
        by_cases hxi : x.1 = i
        · have hnil : filterKey i (y :: xs) = [] := by
            refine filterKey_nil_of_all_gt ?_
            intro z hz
            have hylt : x.1 < y.1 :=
              lt_of_le_of_ne (sortedLe_cons_le h y (List.mem_cons_self y xs)) hxy
            rcases List.mem_cons.mp hz with rfl | hzs
            · omega
            · have := sortedLe_cons_le htail z hzs
              omega
          rw [filterKey_cons, if_pos hxi, hnil]
          simp [findRow, hxi]
        · rw [filterKey_cons, if_neg hxi]
          simp only [findRow, if_neg hxi]
          rw [ih]
termination_by l => l.length

theorem filterKey_of_strictInc : ∀ l : Table, strictInc l = true → ∀ i : Int,
    filterKey i l = match findRow i l with | some r => [(i, r)] | none => [] := by
  intro l h i
  induction l with
  | nil => simp [filterKey, findRow]
  | cons x xs ih =>
      rw [filterKey_cons]
      by_cases hxi : x.1 = i
      · have hnil : filterKey i xs = [] :=
          filterKey_nil_of_all_gt (fun y hy => hxi ▸ strictInc_cons_lt h y hy)
        rw [if_pos hxi, hnil]
        simp only [findRow, if_pos hxi]
        have hx : x = (i, x.2) := Prod.ext hxi rfl
        rw [← hx]
      · rw [if_neg hxi]
        simp only [findRow, if_neg hxi]
        exact ih (strictInc_tail h)

/-- The per-instant content of the merged table: for an instant present in
both the cached rows and the fresh rows, the merged row combines them per
column with the fresh (later) value winning unless it is null. -/
theorem findRow_mergeCandidate (c fresh : Table) (hc : strictInc c = true)
    (hne : c.isEmpty = false) (i : Int) :
    findRow i (mergeCandidate (some c) fresh) =
      match findRow i c, findRow i (normalizeTable fresh) with
      | some rc, some rf => some (combineRows rc rf)
      | some rc, none => some rc
      | none, some rf => some rf
      | none, none => none := by
  have hnf : strictInc (normalizeTable fresh) = true := strictInc_normalizeTable fresh
  have hdf : dedupKeepLast (sortTable (normalizeTable fresh)) = normalizeTable fresh := by
    rw [sortTable_eq_of_sorted (sortedLe_of_strictInc hnf), dedupKeepLast_eq_of_strictInc hnf]
  have hdc : dedupKeepLast c = c := dedupKeepLast_eq_of_strictInc hc
  simp only [mergeCandidate, hne, Bool.false_eq_true, if_false, hdf, hdc]
  rw [findRow_groupLast_spec _ (sortedLe_sortTable _) i]
  rw [filterKey_sortTable, filterKey_append]
  rw [filterKey_of_strictInc c hc i, filterKey_of_strictInc _ hnf i]
  cases hfc : findRow i c <;> cases hff : findRow i (normalizeTable fresh) <;>
    simp [List.foldl_cons, List.foldl_nil]

/-! ## Lemmas: association lists and the cache stores -/

theorem lookupA_insertA_same {κ α : Type} [DecidableEq κ] (k : κ) (v : α) (l : List (κ × α)) :
    lookupA k (insertA k v l) = some v := by
  simp [lookupA, insertA]

theorem lookupA_filter_ne {κ α : Type} [DecidableEq κ] (k k0 : κ) (l : List (κ × α))
    (hk : ¬(k0 = k)) :
    lookupA k0 (l.filter (fun kv => !decide (kv.1 = k))) = lookupA k0 l := by
  induction l with
  | nil => rfl
  | cons kv rest ih =>
      rw [List.filter_cons]
      by_cases hkv : kv.1 = k
      · rw [if_neg (by simp [hkv])]
        rw [ih]
        have hne : ¬(kv.1 = k0) := by rw [hkv]; intro hc; exact hk hc.symm
        simp [lookupA, hne]
      · rw [if_pos (by simp [hkv])]
        simp only [lookupA]
        by_cases hk0 : kv.1 = k0
        · simp [hk0]
        · simp [hk0, ih]

theorem lookupA_insertA_other {κ α : Type} [DecidableEq κ] (k k0 : κ) (v : α)
    (l : List (κ × α)) (hk : ¬(k0 = k)) :
    lookupA k0 (insertA k v l) = lookupA k0 l := by
  simp only [insertA, lookupA]
  rw [if_neg (fun hc : k = k0 => hk hc.symm)]
  exact lookupA_filter_ne k k0 l hk

theorem hotStoreDf_hotEnabled (w : World) (p t i : String) (df : Table) (ttl now : Int) :
    (hotStoreDf w p t i df ttl now).hotEnabled = w.hotEnabled := by
  simp only [hotStoreDf]
  split <;> try rfl
  split <;> rfl

theorem hotStoreDf_parquetOk (w : World) (p t i : String) (df : Table) (ttl now : Int) :
    (hotStoreDf w p t i df ttl now).parquetOk = w.parquetOk := by
  simp only [hotStoreDf]
  split <;> try rfl
  split <;> rfl

theorem hotStoreDf_cfg (w : World) (p t i : String) (df : Table) (ttl now : Int) :
    (hotStoreDf w p t i df ttl now).cfg = w.cfg := by
  simp only [hotStoreDf]
  split <;> try rfl
  split <;> rfl

theorem hotStoreDf_disk (w : World) (p t i : String) (df : Table) (ttl now : Int) :
    (hotStoreDf w p t i df ttl now).disk = w.disk := by
  simp only [hotStoreDf]
  split <;> try rfl
  split <;> rfl

theorem diskStore_hotEnabled (w : World) (t tf : String) (df : Table) (p : String) (now : Int) :
    (diskStore w t tf df p now).hotEnabled = w.hotEnabled := by
  simp only [diskStore]
  split <;> rfl

theorem diskStore_parquetOk (w : World) (t tf : String) (df : Table) (p : String) (now : Int) :
    (diskStore w t tf df p now).parquetOk = w.parquetOk := by
  simp only [diskStore]
  split <;> rfl

theorem diskStore_cfg (w : World) (t tf : String) (df : Table) (p : String) (now : Int) :
    (diskStore w t tf df p now).cfg = w.cfg := by
  simp only [diskStore]
  split <;> rfl

theorem diskStore_hot (w : World) (t tf : String) (df : Table) (p : String) (now : Int) :
    (diskStore w t tf df p now).hot = w.hot := by
  simp only [diskStore]
  split <;> rfl

/-! ## Lemmas: the orchestrator on a total cache miss -/

/-- A provider attempt that produces no data: its fetch raises, or succeeds
with an empty frame. -/
def failsToProduce (p : ProviderSpec) : Bool :=
  match p.fetch with
  | .ok t => t.isEmpty
  | .providerError => true
  | .unexpectedError => true

theorem cacheProbe_total_miss (p : ProviderSpec) (a : FetchArgs) (interval : String) (w : World)
    (now : Int) (hhot : hotLoadDf w p.name a.ticker interval now = none)
    (hdisk : lookupA (makeDiskKey a.ticker interval p.name) w.disk = none) :
    cacheProbe p a interval w now = .ok (.miss none, w) := by
  have hpd : probeDisk p a interval none w now = .ok (.miss none, w) := by
    simp [probeDisk, diskLoad, hdisk]
  simp only [cacheProbe]
  by_cases huc : a.useCache
  · rw [if_neg (by simp [huc])]
    by_cases hfr : a.forceRefresh
    · simp only [if_pos hfr]
      exact hpd
    · simp only [if_neg hfr, hhot]
      exact hpd
  · rw [if_pos (by simp [huc])]

theorem fetchPhase_fails (p : ProviderSpec) (a : FetchArgs) (interval : String) (w : World)
    (now : Int) (hf : failsToProduce p = true) :
    fetchPhase p a interval none w now = (none, w) := by
  cases hfetch : p.fetch with
  | providerError => simp [fetchPhase, hfetch]
  | unexpectedError => simp [fetchPhase, hfetch]
  | ok t =>
      have ht : t = [] := by
        simp only [failsToProduce, hfetch, List.isEmpty_iff] at hf
        exact hf
      subst ht
      simp [fetchPhase, hfetch, mergeCandidate, normalizeTable, sortTable, dedupKeepLast]

/-- Claim C1: when every resolved provider fails to produce data and no cache
entry exists in any tier for any of them, get_latest_candles returns the empty
table with no source tag and raises nothing; the world is untouched and every
provider was attempted in order. -/
theorem claim_C1_exhaustion_empty (ps : List ProviderSpec) (a : FetchArgs) (w : World) (now : Int)
    (hmiss : ∀ p ∈ ps, hotLoadDf w p.name a.ticker (effInterval a) now = none ∧
      lookupA (makeDiskKey a.ticker (effInterval a) p.name) w.disk = none)
    (hfail : ∀ p ∈ ps, failsToProduce p = true) :
    getLatestCandles a ps w now =
      .ok ({ table := [], source := none, calls := ps.map ProviderSpec.name }, w) := by
  unfold getLatestCandles
  induction ps with
  | nil => rfl
  | cons p rest ih =>
      have hp := hmiss p (List.mem_cons_self p rest)
      have hprobe := cacheProbe_total_miss p a (effInterval a) w now hp.1 hp.2
      have hphase := fetchPhase_fails p a (effInterval a) w now (hfail p (List.mem_cons_self p rest))
      have hrest := ih (fun q hq => hmiss q (List.mem_cons_of_mem p hq))
        (fun q hq => hfail q (List.mem_cons_of_mem p hq))
      simp only [runProviders, hprobe, hphase, hrest, List.map_cons]

/-! ## Lemmas: the three exits of one provider-loop iteration -/

/-- Prefix a provider name onto the call log of a loop outcome. -/
def consCalls (n : String) (rw : FetchResult × World) : FetchResult × World :=
  ({ rw.1 with calls := n :: rw.1.calls }, rw.2)

theorem runProviders_hit (p : ProviderSpec) (rest : List ProviderSpec) (a : FetchArgs)
    (interval : String) (w : World) (now : Int) (t : Table) (w1 : World)
    (hprobe : cacheProbe p a interval w now = .ok (.hit t, w1)) :
    runProviders (p :: rest) a interval w now =
      .ok ({ table := clipTable t a.start? a.end?, source := some p.name, calls := [] }, w1) := by
  simp only [runProviders, hprobe]

theorem runProviders_fetched (p : ProviderSpec) (rest : List ProviderSpec) (a : FetchArgs)
    (interval : String) (w : World) (now : Int) (cached : Option Table) (w1 : World)
    (tab : Table) (src : String) (w2 : World)
    (hprobe : cacheProbe p a interval w now = .ok (.miss cached, w1))
    (hphase : fetchPhase p a interval cached w1 now = (some (tab, src), w2)) :
    runProviders (p :: rest) a interval w now =
      .ok ({ table := clipTable tab a.start? a.end?, source := some src,
             calls := [p.name] }, w2) := by
  simp only [runProviders, hprobe, hphase]

theorem runProviders_continue (p : ProviderSpec) (rest : List ProviderSpec) (a : FetchArgs)
    (interval : String) (w : World) (now : Int) (cached : Option Table) (w1 w2 : World)
    (hprobe : cacheProbe p a interval w now = .ok (.miss cached, w1))
    (hphase : fetchPhase p a interval cached w1 now = (none, w2)) :
    runProviders (p :: rest) a interval w now =
      (runProviders rest a interval w2 now).map (consCalls p.name) := by
  simp only [runProviders, hprobe, hphase]
  cases hrr : runProviders rest a interval w2 now with
  | error e => simp [Except.map]
  | ok rw => cases rw with
    | mk r w3 => simp [Except.map, consCalls]

/-- Claim C3 (amended): when a provider raises and the probe found a non-empty
cached table, the orchestrator returns that cached table clipped to range and
tagged with the provider name - no exception, though the clipped table can be
empty when the requested range excludes every cached row; when no non-empty
cached table was found, the orchestrator moves on to the next provider. -/
theorem claim_C3_degrade_amended (p : ProviderSpec) (rest : List ProviderSpec) (a : FetchArgs)
    (interval : String) (w : World) (now : Int) (cached : Option Table) (w1 : World)
    (hraise : p.fetch = .providerError ∨ p.fetch = .unexpectedError)
    (hprobe : cacheProbe p a interval w now = .ok (.miss cached, w1)) :
    (∀ c, cached = some c → c.isEmpty = false →
      runProviders (p :: rest) a interval w now =
        .ok ({ table := clipTable c a.start? a.end?, source := some p.name,
               calls := [p.name] }, w1))
    ∧ (cached = none ∨ cached = some [] →
      runProviders (p :: rest) a interval w now =
        (runProviders rest a interval w1 now).map (consCalls p.name)) := by
  constructor
  · intro c hcached hcne
    subst hcached
    have hphase : fetchPhase p a interval (some c) w1 now = (some (c, p.name), w1) := by
      rcases hraise with hr | hr <;> simp [fetchPhase, hr, hcne]
    exact runProviders_fetched p rest a interval w now (some c) w1 c p.name w1 hprobe hphase
  · intro hnone
    have hphase : fetchPhase p a interval cached w1 now = (none, w1) := by
      rcases hnone with hcn | hcn <;> subst hcn <;>
        rcases hraise with hr | hr <;> simp [fetchPhase, hr]
    exact runProviders_continue p rest a interval w now cached w1 w1 hprobe hphase

/-- Claim C10: an empty table is never written to any cache tier - the tier-3
store and the tier-1/2 store are both identities on an empty frame, and a
provider fetch that succeeds but merges to zero rows writes nothing and makes
the orchestrator try the next provider in the list. -/
theorem claim_C10_no_empty_writes :
    (∀ (w : World) (t tf p : String) (now : Int), diskStore w t tf [] p now = w)
    ∧ (∀ (w : World) (p t i : String) (ttl now : Int), hotStoreDf w p t i [] ttl now = w)
    ∧ (∀ (p : ProviderSpec) (rest : List ProviderSpec) (a : FetchArgs) (interval : String)
        (w : World) (now : Int) (cached : Option Table) (w1 : World) (fresh : Table),
        p.fetch = .ok fresh → (mergeCandidate cached fresh).isEmpty = true →
        cacheProbe p a interval w now = .ok (.miss cached, w1) →
        fetchPhase p a interval cached w1 now = (none, w1) ∧
        runProviders (p :: rest) a interval w now =
          (runProviders rest a interval w1 now).map (consCalls p.name)) := by
  refine ⟨?_, ?_, ?_⟩
  · intro w t tf p now
    simp [diskStore]
  · intro w p t i ttl now
    simp [hotStoreDf]
  · intro p rest a interval w now cached w1 fresh hfetch hempty hprobe
    have hphase : fetchPhase p a interval cached w1 now = (none, w1) := by
      simp [fetchPhase, hfetch, hempty]
    exact ⟨hphase, runProviders_continue p rest a interval w now cached w1 w1 hprobe hphase⟩

/-! ## Claim C4: merge invariants -/

theorem strictInc_filter {l : Table} (pred : Int × Row → Bool) (h : strictInc l = true) :
    strictInc (l.filter pred) = true := by
  induction l with
  | nil => rfl
  | cons x xs ih =>
      rw [List.filter_cons]
      by_cases hp : pred x = true
      · rw [if_pos hp]
        refine strictInc_cons_of (ih (strictInc_tail h)) ?_
        intro y hy
        exact strictInc_cons_lt h y (List.mem_of_mem_filter hy)
      · rw [if_neg hp]
        exact ih (strictInc_tail h)

theorem strictInc_clipTable (t : Table) (s e : Option Int) (h : strictInc t = true) :
    strictInc (clipTable t s e) = true := by
  unfold clipTable
  cases s with
  | none =>
      cases e with
      | none => exact h
      | some ev => exact strictInc_filter _ h
  | some sv =>
      cases e with
      | none => exact strictInc_filter _ h
      | some ev => exact strictInc_filter _ (strictInc_filter _ h)

/-- Claim C4 (amended): every table the orchestrator writes through to the
cache tiers, and returns on a successful fetch, has strictly increasing unique
instants; for an instant present in both the cached and the fresh rows the
stored row holds, per column, the last non-null value - the fresh value wins
exactly where it is non-null, while a null fresh cell lets the previously
cached value survive. -/
theorem claim_C4_merge_amended :
    (∀ (cached : Option Table) (fresh : Table), strictInc (mergeCandidate cached fresh) = true)
    ∧ (∀ t : Table, strictInc (normalizeTable t) = true)
    ∧ (∀ (t : Table) (s e : Option Int), strictInc t = true →
        strictInc (clipTable t s e) = true)
    ∧ (∀ (c fresh : Table), strictInc c = true → c.isEmpty = false → ∀ i : Int,
        findRow i (mergeCandidate (some c) fresh) =
          match findRow i c, findRow i (normalizeTable fresh) with
          | some rc, some rf => some (combineRows rc rf)
          | some rc, none => some rc
          | none, some rf => some rf
          | none, none => none)
    ∧ (∀ (p : ProviderSpec) (a : FetchArgs) (interval : String) (cached : Option Table)
        (w : World) (now : Int) (fresh : Table),
        p.fetch = .ok fresh → (mergeCandidate cached fresh).isEmpty = false →
        fetchPhase p a interval cached w now =
          (some (mergeCandidate cached fresh, p.name),
           hotStoreDf (diskStore w a.ticker interval (mergeCandidate cached fresh) p.name now)
             p.name a.ticker interval (mergeCandidate cached fresh)
             (ttlForInterval
               (diskStore w a.ticker interval (mergeCandidate cached fresh) p.name now).cfg
               interval) now)) := by
  refine ⟨strictInc_mergeCandidate, strictInc_normalizeTable,
    fun t s e h => strictInc_clipTable t s e h, findRow_mergeCandidate, ?_⟩
  intro p a interval cached w now fresh hfetch hne
  simp [fetchPhase, hfetch, hne]

/-! ## Claim C5: cache idempotence within the freshness window -/

theorem probeDisk_fields (p : ProviderSpec) (a : FetchArgs) (interval : String)
    (cached : Option Table) (w : World) (now : Int) (pr : Probe) (w1 : World)
    (h : probeDisk p a interval cached w now = .ok (pr, w1)) :
    w1.hotEnabled = w.hotEnabled ∧ w1.cfg = w.cfg ∧ w1.parquetOk = w.parquetOk ∧
      w1.disk = w.disk := by
  unfold probeDisk at h
  cases hd : diskLoad w a.ticker interval p.name (selectCacheTtl interval p.name) now with
  | error e => rw [hd] at h; simp at h
  | ok od =>
      rw [hd] at h
      cases od with
      | none =>
          simp only [Except.ok.injEq, Prod.mk.injEq] at h
          rw [← h.2]
          exact ⟨rfl, rfl, rfl, rfl⟩
      | some d =>
          simp only at h
          split at h <;>
            · simp only [Except.ok.injEq, Prod.mk.injEq] at h
              rw [← h.2]
              exact ⟨hotStoreDf_hotEnabled .., hotStoreDf_cfg .., hotStoreDf_parquetOk ..,
                hotStoreDf_disk ..⟩

theorem cacheProbe_fields (p : ProviderSpec) (a : FetchArgs) (interval : String) (w : World)
    (now : Int) (pr : Probe) (w1 : World)
    (h : cacheProbe p a interval w now = .ok (pr, w1)) :
    w1.hotEnabled = w.hotEnabled ∧ w1.cfg = w.cfg ∧ w1.parquetOk = w.parquetOk ∧
      w1.disk = w.disk := by
  unfold cacheProbe at h
  split at h
  · simp only [Except.ok.injEq, Prod.mk.injEq] at h
    rw [← h.2]
    exact ⟨rfl, rfl, rfl, rfl⟩
  · split at h
    · dsimp only at h
      split at h
      · simp only [Except.ok.injEq, Prod.mk.injEq] at h
        rw [← h.2]
        exact ⟨rfl, rfl, rfl, rfl⟩
      · exact probeDisk_fields _ _ _ _ _ _ _ _ h
    · exact probeDisk_fields _ _ _ _ _ _ _ _ h

theorem hotStoreDf_lookup_self (w : World) (p t i : String) (df : Table) (ttl now : Int)
    (hen : w.hotEnabled = true) (hdf : df.isEmpty = false) (httl : 0 < ttl) :
    lookupA (makeHotKey p t i) (hotStoreDf w p t i df ttl now).hot =
      some { table := df, expiresAt := now + ttl } := by
  have h1 : ¬(!w.hotEnabled || df.isEmpty) = true := by simp [hen, hdf]
  have h2 : ¬(ttl ≤ 0) := by omega
  simp only [hotStoreDf, if_neg h1, if_neg h2]
  exact lookupA_insertA_same ..

theorem hotLoadDf_of_entry (w : World) (p t i : String) (now : Int) (e : HotEntry)
    (hen : w.hotEnabled = true)
    (hl : lookupA (makeHotKey p t i) w.hot = some e) (hexp : now < e.expiresAt) :
    hotLoadDf w p t i now = some e.table := by
  simp [hotLoadDf, hen, hl, hexp]

/-- Claim C5 (amended): with the hot tier enabled, two consecutive identical
calls where the first call reaches a successful provider fetch and stores a
non-empty merged table issue zero provider calls on the second invocation and
return the identical table, provided the second call happens before the hot
entry expires AND the stored table still passes the freshness heuristic at
that moment; the spec's TTL window alone does not suffice, because the
orchestrator re-fetches whenever the freshness heuristic judges the data
stale. -/
theorem claim_C5_idempotent_amended (p : ProviderSpec) (rest : List ProviderSpec) (a : FetchArgs)
    (w0 : World) (t1 t2 : Int) (fresh : Table) (cached : Option Table) (w0x : World)
    (huse : a.useCache = true) (hforce : a.forceRefresh = false)
    (hhotEn : w0.hotEnabled = true)
    (hprobe : cacheProbe p a (effInterval a) w0 t1 = .ok (.miss cached, w0x))
    (hfetch : p.fetch = .ok fresh)
    (hne : (mergeCandidate cached fresh).isEmpty = false)
    (httlpos : 0 < ttlForInterval w0.cfg (effInterval a))
    (hwithin : t2 < t1 + ttlForInterval w0.cfg (effInterval a))
    (hfresh2 : needsRefresh (mergeCandidate cached fresh) (effInterval a) a.end? t2 = false) :
    ∃ r1 w1, getLatestCandles a (p :: rest) w0 t1 = .ok (r1, w1) ∧ r1.calls = [p.name] ∧
      ∃ r2 w2, getLatestCandles a (p :: rest) w1 t2 = .ok (r2, w2) ∧
        r2.calls = [] ∧ r2.table = r1.table ∧ r2.source = r1.source := by
  have hfieldsx := cacheProbe_fields p a (effInterval a) w0 t1 _ _ hprobe
  set I := effInterval a with hI
  set df := mergeCandidate cached fresh with hdf
  set wd := diskStore w0x a.ticker I df p.name t1 with hwd
  set w1 := hotStoreDf wd p.name a.ticker I df (ttlForInterval wd.cfg I) t1 with hw1
  have hphase : fetchPhase p a I cached w0x t1 = (some (df, p.name), w1) := by
    simp only [fetchPhase, hfetch, hdf, hne, Bool.false_eq_true, if_false]
  have hrun1 := runProviders_fetched p rest a I w0 t1 cached w0x df p.name w1 hprobe hphase
  have hcfgwd : wd.cfg = w0.cfg := by rw [hwd, diskStore_cfg, hfieldsx.2.1]
  have henwd : wd.hotEnabled = true := by rw [hwd, diskStore_hotEnabled, hfieldsx.1, hhotEn]
  have httl : 0 < ttlForInterval wd.cfg I := by rw [hcfgwd]; exact httlpos
  have hlook : lookupA (makeHotKey p.name a.ticker I) w1.hot =
      some { table := df, expiresAt := t1 + ttlForInterval wd.cfg I } := by
    rw [hw1]
    exact hotStoreDf_lookup_self wd p.name a.ticker I df _ t1 henwd hne httl
  have hen1 : w1.hotEnabled = true := by rw [hw1, hotStoreDf_hotEnabled]; exact henwd
  have hload : hotLoadDf w1 p.name a.ticker I t2 = some df := by
    refine hotLoadDf_of_entry w1 p.name a.ticker I t2 _ hen1 hlook ?_
    simp only []
    rw [hcfgwd]
    omega
  have hnorm : normalizeTable df = df :=
    normalizeTable_eq_of_strictInc (strictInc_mergeCandidate cached fresh)
  have hprobe2 : cacheProbe p a I w1 t2 = .ok (.hit df, w1) := by
    simp only [cacheProbe, huse, Bool.not_true, Bool.false_eq_true, if_false, hforce,
      if_neg (by simp : ¬(false = true)), hload, hnorm, hfresh2]
    rfl
  have hrun2 := runProviders_hit p rest a I w1 t2 df w1 hprobe2
  refine ⟨{ table := clipTable df a.start? a.end?, source := some p.name, calls := [p.name] }, w1,
    by rw [getLatestCandles, ← hI]; exact hrun1, rfl,
    { table := clipTable df a.start? a.end?, source := some p.name, calls := [] }, w1,
    by rw [getLatestCandles, ← hI]; exact hrun2, rfl, rfl, rfl⟩

/-! ## Claim C9: batch isolation via a frame argument -/

/-- Two worlds agree on everything a fetch for the given ticker can observe:
the flags, the configuration, and both tiers at that ticker's keys. -/
def tickerAgrees (tick : String) (w w' : World) : Prop :=
  w.hotEnabled = w'.hotEnabled ∧ w.parquetOk = w'.parquetOk ∧ w.cfg = w'.cfg ∧
  (∀ k : HotKey, k.ticker = asciiUpper tick → lookupA k w.hot = lookupA k w'.hot) ∧
  (∀ k : DiskKey, k.ticker = asciiUpper (replaceSlash tick) →
    lookupA k w.disk = lookupA k w'.disk)

/-- A world evolution leaves every key of other tickers (and the flags)
untouched. -/
def preservesOther (tick : String) (w w' : World) : Prop :=
  w'.hotEnabled = w.hotEnabled ∧ w'.parquetOk = w.parquetOk ∧ w'.cfg = w.cfg ∧
  (∀ k : HotKey, ¬(k.ticker = asciiUpper tick) → lookupA k w'.hot = lookupA k w.hot) ∧
  (∀ k : DiskKey, ¬(k.ticker = asciiUpper (replaceSlash tick)) →
    lookupA k w'.disk = lookupA k w.disk)

theorem preservesOther_refl (tick : String) (w : World) : preservesOther tick w w :=
  ⟨rfl, rfl, rfl, fun _ _ => rfl, fun _ _ => rfl⟩

theorem preservesOther_trans {tick : String} {w1 w2 w3 : World}
    (h12 : preservesOther tick w1 w2) (h23 : preservesOther tick w2 w3) :
    preservesOther tick w1 w3 := by
  obtain ⟨a1, a2, a3, a4, a5⟩ := h12
  obtain ⟨b1, b2, b3, b4, b5⟩ := h23
  exact ⟨b1.trans a1, b2.trans a2, b3.trans a3,
    fun k hk => (b4 k hk).trans (a4 k hk), fun k hk => (b5 k hk).trans (a5 k hk)⟩

theorem hotLoadDf_congr {tick : String} {w w' : World} (h : tickerAgrees tick w w')
    (p i : String) (now : Int) : hotLoadDf w p tick i now = hotLoadDf w' p tick i now := by
  obtain ⟨hen, _, _, hhot, _⟩ := h
  simp only [hotLoadDf, hen, hhot (makeHotKey p tick i) rfl]

theorem diskLoadA_congr {tick : String} {w w' : World} (h : tickerAgrees tick w w')
    (tf p : String) (ttl now : Int) :
    diskLoad w tick tf p ttl now = diskLoad w' tick tf p ttl now := by
  obtain ⟨_, _, _, _, hdisk⟩ := h
  simp only [diskLoad, hdisk (makeDiskKey tick tf p) rfl]

theorem hotStoreDf_congr {tick : String} {w w' : World} (h : tickerAgrees tick w w')
    (p i : String) (df : Table) (ttl now : Int) :
    tickerAgrees tick (hotStoreDf w p tick i df ttl now) (hotStoreDf w' p tick i df ttl now) := by
  obtain ⟨hen, hpa, hcfg, hhot, hdisk⟩ := h
  by_cases hskip : (!w.hotEnabled || df.isEmpty) = true
  · have hskip' : (!w'.hotEnabled || df.isEmpty) = true := by rw [← hen]; exact hskip
    simp only [hotStoreDf, if_pos hskip, if_pos hskip']
    exact ⟨hen, hpa, hcfg, hhot, hdisk⟩
  · have hskip' : ¬((!w'.hotEnabled || df.isEmpty) = true) := by rw [← hen]; exact hskip
    simp only [hotStoreDf, if_neg hskip, if_neg hskip']
    by_cases httl : ttl ≤ 0
    · simp only [if_pos httl]
      exact ⟨hen, hpa, hcfg, hhot, hdisk⟩
    · simp only [if_neg httl]
      refine ⟨hen, hpa, hcfg, ?_, hdisk⟩
      intro k hk
      by_cases hkk : k = makeHotKey p tick i
      · subst hkk
        simp only [lookupA_insertA_same]
      · simp only [lookupA_insertA_other _ _ _ _ hkk]
        exact hhot k hk

theorem diskStore_congr {tick : String} {w w' : World} (h : tickerAgrees tick w w')
    (tf : String) (df : Table) (p : String) (now : Int) :
    tickerAgrees tick (diskStore w tick tf df p now) (diskStore w' tick tf df p now) := by
  obtain ⟨hen, hpa, hcfg, hhot, hdisk⟩ := h
  by_cases hdf : df.isEmpty = true
  · simp only [diskStore, if_pos hdf]
    exact ⟨hen, hpa, hcfg, hhot, hdisk⟩
  · have hold : lookupA (makeDiskKey tick tf p) w.disk = lookupA (makeDiskKey tick tf p) w'.disk :=
      hdisk (makeDiskKey tick tf p) rfl
    simp only [diskStore, if_neg hdf, ← hpa, ← hold]
    refine ⟨hen, rfl, hcfg, hhot, ?_⟩
    intro k hk
    by_cases hkk : k = makeDiskKey tick tf p
    · subst hkk
      show lookupA _ (insertA _ _ w.disk) = lookupA _ (insertA _ _ w'.disk)
      rw [lookupA_insertA_same, lookupA_insertA_same]
    · show lookupA _ (insertA _ _ w.disk) = lookupA _ (insertA _ _ w'.disk)
      rw [lookupA_insertA_other _ _ _ _ hkk, lookupA_insertA_other _ _ _ _ hkk]
      exact hdisk k hk

theorem hotStoreDf_preserves (w : World) (p tick i : String) (df : Table) (ttl now : Int) :
    preservesOther tick w (hotStoreDf w p tick i df ttl now) := by
  refine ⟨hotStoreDf_hotEnabled .., hotStoreDf_parquetOk .., hotStoreDf_cfg .., ?_, ?_⟩
  · intro k hk
    simp only [hotStoreDf]
    split
    · rfl
    · split
      · rfl
      · simp only []
        refine lookupA_insertA_other _ _ _ _ ?_
        intro hkk
        exact hk (by rw [hkk]; rfl)
  · intro k _
    rw [hotStoreDf_disk]

theorem diskStore_preserves (w : World) (tick tf : String) (df : Table) (p : String) (now : Int) :
    preservesOther tick w (diskStore w tick tf df p now) := by
  refine ⟨diskStore_hotEnabled .., diskStore_parquetOk .., diskStore_cfg .., ?_, ?_⟩
  · intro k _
    rw [diskStore_hot]
  · intro k hk
    simp only [diskStore]
    split
    · rfl
    · simp only []
      refine lookupA_insertA_other _ _ _ _ ?_
      intro hkk
      exact hk (by rw [hkk]; rfl)

theorem probeDisk_congr (p : ProviderSpec) (a : FetchArgs) (interval : String)
    (cached : Option Table) (w w' : World) (now : Int) (h : tickerAgrees a.ticker w w') :
    (∃ e, probeDisk p a interval cached w now = .error e ∧
      probeDisk p a interval cached w' now = .error e) ∨
    (∃ pr w1 w1', probeDisk p a interval cached w now = .ok (pr, w1) ∧
      probeDisk p a interval cached w' now = .ok (pr, w1') ∧ tickerAgrees a.ticker w1 w1') := by
  have hld := diskLoadA_congr h interval p.name (selectCacheTtl interval p.name) now
  unfold probeDisk
  cases hd : diskLoad w a.ticker interval p.name (selectCacheTtl interval p.name) now with
  | error e =>
      left
      exact ⟨e, rfl, by rw [← hld, hd]⟩
  | ok od =>
      rw [← hld, hd]
      cases od with
      | none => exact Or.inr ⟨.miss cached, w, w', rfl, rfl, h⟩
      | some d =>
          right
          have hstore := hotStoreDf_congr h p.name interval (normalizeTable d)
            (ttlForInterval w.cfg interval) now
          have hcfg : w.cfg = w'.cfg := h.2.2.1
          rw [← hcfg]
          dsimp only
          split
          · exact ⟨.hit (normalizeTable d), _, _, rfl, rfl, hstore⟩
          · exact ⟨.miss (some (normalizeTable d)), _, _, rfl, rfl, hstore⟩

theorem cacheProbe_congr (p : ProviderSpec) (a : FetchArgs) (interval : String)
    (w w' : World) (now : Int) (h : tickerAgrees a.ticker w w') :
    (∃ e, cacheProbe p a interval w now = .error e ∧
      cacheProbe p a interval w' now = .error e) ∨
    (∃ pr w1 w1', cacheProbe p a interval w now = .ok (pr, w1) ∧
      cacheProbe p a interval w' now = .ok (pr, w1') ∧ tickerAgrees a.ticker w1 w1') := by
  unfold cacheProbe
  by_cases huc : (!a.useCache) = true
  · rw [if_pos huc, if_pos huc]
    exact Or.inr ⟨.miss none, w, w', rfl, rfl, h⟩
  · rw [if_neg huc, if_neg huc]
    have hhl : (if a.forceRefresh = true then none else hotLoadDf w p.name a.ticker interval now) =
        (if a.forceRefresh = true then none else hotLoadDf w' p.name a.ticker interval now) := by
      by_cases hfr : a.forceRefresh = true
      · rw [if_pos hfr, if_pos hfr]
      · rw [if_neg hfr, if_neg hfr, hotLoadDf_congr h]
    rw [← hhl]
    cases hh : (if a.forceRefresh = true then none else hotLoadDf w p.name a.ticker interval now) with
    | none => exact probeDisk_congr p a interval none w w' now h
    | some ht =>
        dsimp only
        split
        · exact Or.inr ⟨.hit (normalizeTable ht), w, w', rfl, rfl, h⟩
        · exact probeDisk_congr p a interval (some (normalizeTable ht)) w w' now h

theorem fetchPhase_congr (p : ProviderSpec) (a : FetchArgs) (interval : String)
    (cached : Option Table) (w w' : World) (now : Int) (h : tickerAgrees a.ticker w w') :
    ∃ out w1 w1', fetchPhase p a interval cached w now = (out, w1) ∧
      fetchPhase p a interval cached w' now = (out, w1') ∧ tickerAgrees a.ticker w1 w1' := by
  unfold fetchPhase
  cases p.fetch with
  | providerError =>
      cases cached with
      | none => exact ⟨none, w, w', rfl, rfl, h⟩
      | some c =>
          dsimp only
          split
          · exact ⟨none, w, w', rfl, rfl, h⟩
          · exact ⟨some (c, p.name), w, w', rfl, rfl, h⟩
  | unexpectedError =>
      cases cached with
      | none => exact ⟨none, w, w', rfl, rfl, h⟩
      | some c =>
          dsimp only
          split
          · exact ⟨none, w, w', rfl, rfl, h⟩
          · exact ⟨some (c, p.name), w, w', rfl, rfl, h⟩
  | ok fresh =>
      dsimp only
      by_cases hdf : (mergeCandidate cached fresh).isEmpty = true
      · rw [if_pos hdf, if_pos hdf]
        exact ⟨none, w, w', rfl, rfl, h⟩
      · rw [if_neg hdf, if_neg hdf]
        have hds := diskStore_congr h interval (mergeCandidate cached fresh) p.name now
        have hcfgd : (diskStore w a.ticker interval (mergeCandidate cached fresh) p.name now).cfg =
            (diskStore w' a.ticker interval (mergeCandidate cached fresh) p.name now).cfg :=
          hds.2.2.1
        have hhs := hotStoreDf_congr hds p.name interval (mergeCandidate cached fresh)
          (ttlForInterval (diskStore w a.ticker interval
            (mergeCandidate cached fresh) p.name now).cfg interval) now
        refine ⟨some (mergeCandidate cached fresh, p.name), _, _, rfl, ?_, hhs⟩
        rw [hcfgd]

theorem runProviders_congr (ps : List ProviderSpec) (a : FetchArgs) (interval : String)
    (w w' : World) (now : Int) (h : tickerAgrees a.ticker w w') :
    (∃ e, runProviders ps a interval w now = .error e ∧
      runProviders ps a interval w' now = .error e) ∨
    (∃ r w1 w1', runProviders ps a interval w now = .ok (r, w1) ∧
      runProviders ps a interval w' now = .ok (r, w1') ∧ tickerAgrees a.ticker w1 w1') := by
  induction ps generalizing w w' with
  | nil => exact Or.inr ⟨_, w, w', rfl, rfl, h⟩
  | cons p rest ih =>
      rcases cacheProbe_congr p a interval w w' now h with ⟨e, he, he'⟩ | ⟨pr, w1, w1', hp, hp', h1⟩
      · left
        refine ⟨e, ?_, ?_⟩ <;> simp only [runProviders, he, he']
      · cases pr with
        | hit t =>
            right
            exact ⟨{ table := clipTable t a.start? a.end?, source := some p.name, calls := [] },
              w1, w1', by simp only [runProviders, hp], by simp only [runProviders, hp'], h1⟩
        | miss cached =>
            obtain ⟨out, w2, w2', hf, hf', h2⟩ :=
              fetchPhase_congr p a interval cached w1 w1' now h1
            cases out with
            | some ts =>
                obtain ⟨tab, src⟩ := ts
                right
                refine ⟨FetchResult.mk (clipTable tab a.start? a.end?) (some src) [p.name],
                  w2, w2', ?_, ?_, h2⟩ <;>
                  simp only [runProviders, hp, hp', hf, hf']
            | none =>
                rcases ih w2 w2' h2 with ⟨e, hr, hr'⟩ | ⟨r, w3, w3', hr, hr', h3⟩
                · left
                  refine ⟨e, ?_, ?_⟩ <;> simp only [runProviders, hp, hp', hf, hf', hr, hr']
                · right
                  refine ⟨FetchResult.mk r.table r.source (p.name :: r.calls), w3, w3', ?_, ?_, h3⟩ <;>
                    simp only [runProviders, hp, hp', hf, hf', hr, hr']

theorem probeDisk_frame (p : ProviderSpec) (a : FetchArgs) (interval : String)
    (cached : Option Table) (w : World) (now : Int) (pr : Probe) (w1 : World)
    (h : probeDisk p a interval cached w now = .ok (pr, w1)) :
    preservesOther a.ticker w w1 := by
  unfold probeDisk at h
  cases hd : diskLoad w a.ticker interval p.name (selectCacheTtl interval p.name) now with
  | error e => rw [hd] at h; simp at h
  | ok od =>
      rw [hd] at h
      cases od with
      | none =>
          simp only [Except.ok.injEq, Prod.mk.injEq] at h
          rw [← h.2]
          exact preservesOther_refl ..
      | some d =>
          dsimp only at h
          split at h <;>
            · simp only [Except.ok.injEq, Prod.mk.injEq] at h
              rw [← h.2]
              exact hotStoreDf_preserves ..

theorem cacheProbe_frame (p : ProviderSpec) (a : FetchArgs) (interval : String)
    (w : World) (now : Int) (pr : Probe) (w1 : World)
    (h : cacheProbe p a interval w now = .ok (pr, w1)) :
    preservesOther a.ticker w w1 := by
  unfold cacheProbe at h
  split at h
  · simp only [Except.ok.injEq, Prod.mk.injEq] at h
    rw [← h.2]
    exact preservesOther_refl ..
  · split at h
    · dsimp only at h
      split at h
      · simp only [Except.ok.injEq, Prod.mk.injEq] at h
        rw [← h.2]
        exact preservesOther_refl ..
      · exact probeDisk_frame _ _ _ _ _ _ _ _ h
    · exact probeDisk_frame _ _ _ _ _ _ _ _ h

theorem fetchPhase_frame (p : ProviderSpec) (a : FetchArgs) (interval : String)
    (cached : Option Table) (w : World) (now : Int) (out : Option (Table × String)) (w1 : World)
    (h : fetchPhase p a interval cached w now = (out, w1)) :
    preservesOther a.ticker w w1 := by
  unfold fetchPhase at h
  cases hfetch : p.fetch with
  | providerError =>
      rw [hfetch] at h
      cases cached with
      | none =>
          simp only [Prod.mk.injEq] at h
          rw [← h.2]
          exact preservesOther_refl ..
      | some c =>
          dsimp only at h
          split at h <;>
            · simp only [Prod.mk.injEq] at h
              rw [← h.2]
              exact preservesOther_refl ..
  | unexpectedError =>
      rw [hfetch] at h
      cases cached with
      | none =>
          simp only [Prod.mk.injEq] at h
          rw [← h.2]
          exact preservesOther_refl ..
      | some c =>
          dsimp only at h
          split at h <;>
            · simp only [Prod.mk.injEq] at h
              rw [← h.2]
              exact preservesOther_refl ..
  | ok fresh =>
      rw [hfetch] at h
      dsimp only at h
      split at h
      · simp only [Prod.mk.injEq] at h
        rw [← h.2]
        exact preservesOther_refl ..
      · simp only [Prod.mk.injEq] at h
        rw [← h.2]
        exact preservesOther_trans (diskStore_preserves ..) (hotStoreDf_preserves ..)

theorem runProviders_frame (ps : List ProviderSpec) (a : FetchArgs) (interval : String)
    (w : World) (now : Int) (r : FetchResult) (w1 : World)
    (h : runProviders ps a interval w now = .ok (r, w1)) :
    preservesOther a.ticker w w1 := by
  induction ps generalizing w r w1 with
  | nil =>
      simp only [runProviders, Except.ok.injEq, Prod.mk.injEq] at h
      rw [← h.2]
      exact preservesOther_refl ..
  | cons p rest ih =>
      unfold runProviders at h
      cases hp : cacheProbe p a interval w now with
      | error e => rw [hp] at h; simp at h
      | ok prw =>
          rw [hp] at h
          obtain ⟨pr, wp⟩ := prw
          have hframe1 := cacheProbe_frame p a interval w now pr wp hp
          cases pr with
          | hit t =>
              simp only [Except.ok.injEq, Prod.mk.injEq] at h
              rw [← h.2]
              exact hframe1
          | miss cached =>
              dsimp only at h
              cases hf : fetchPhase p a interval cached wp now with
              | mk out wf =>
                  have hframe2 := fetchPhase_frame p a interval cached wp now out wf hf
                  rw [hf] at h
                  cases out with
                  | some ts =>
                      obtain ⟨tab, src⟩ := ts
                      dsimp only at h
                      simp only [Except.ok.injEq, Prod.mk.injEq] at h
                      rw [← h.2]
                      exact preservesOther_trans hframe1 hframe2
                  | none =>
                      dsimp only at h
                      cases hr : runProviders rest a interval wf now with
                      | error e => rw [hr] at h; simp at h
                      | ok rw3 =>
                          obtain ⟨r3, w3⟩ := rw3
                          rw [hr] at h
                          dsimp only at h
                          simp only [Except.ok.injEq, Prod.mk.injEq] at h
                          rw [← h.2]
                          exact preservesOther_trans (preservesOther_trans hframe1 hframe2)
                            (ih wf r3 w3 hr)

theorem tickerAgrees_refl (u : String) (w : World) : tickerAgrees u w w :=
  ⟨rfl, rfl, rfl, fun _ _ => rfl, fun _ _ => rfl⟩

theorem tickerAgrees_trans {u : String} {w1 w2 w3 : World}
    (h12 : tickerAgrees u w1 w2) (h23 : tickerAgrees u w2 w3) : tickerAgrees u w1 w3 := by
  obtain ⟨a1, a2, a3, a4, a5⟩ := h12
  obtain ⟨b1, b2, b3, b4, b5⟩ := h23
  exact ⟨a1.trans b1, a2.trans b2, a3.trans b3,
    fun k hk => (a4 k hk).trans (b4 k hk), fun k hk => (a5 k hk).trans (b5 k hk)⟩

theorem preservesOther_agrees {t u : String} {w w' : World}
    (hp : preservesOther t w w')
    (hhot : ¬(asciiUpper u = asciiUpper t))
    (hdisk : ¬(asciiUpper (replaceSlash u) = asciiUpper (replaceSlash t))) :
    tickerAgrees u w' w := by
  obtain ⟨a1, a2, a3, a4, a5⟩ := hp
  refine ⟨a1, a2, a3, ?_, ?_⟩
  · intro k hk
    exact a4 k (by rw [hk]; exact hhot)
  · intro k hk
    exact a5 k (by rw [hk]; exact hdisk)

theorem batch_isolation_aux (a : FetchArgs) (ps : List ProviderSpec) (w0 : World) (now : Int) :
    ∀ (tickers : List String) (acc : List (String × Table)) (w : World)
      (m : List (String × Table)) (wf : World),
    (∀ u ∈ tickers, tickerAgrees u w w0) →
    (tickers.map asciiUpper).Nodup →
    (tickers.map (fun s => asciiUpper (replaceSlash s))).Nodup →
    batchGo a ps now tickers acc w = .ok (m, wf) →
    (∀ t ∈ tickers, ∃ r w1, getLatestCandles { a with ticker := t } ps w0 now = .ok (r, w1) ∧
      lookupA t m = some r.table) ∧
    (∀ t, ¬(t ∈ tickers) → lookupA t m = lookupA t acc) := by
  intro tickers
  induction tickers with
  | nil =>
      intro acc w m wf _ _ _ hbatch
      simp only [batchGo, Except.ok.injEq, Prod.mk.injEq] at hbatch
      rw [← hbatch.1]
      exact ⟨fun t ht => absurd ht (List.not_mem_nil t), fun t _ => rfl⟩
  | cons t rest ih =>
      intro acc w m wf hagree hnodupH hnodupD hbatch
      unfold batchGo at hbatch
      cases hsingle : getLatestCandles { a with ticker := t } ps w now with
      | error e => rw [hsingle] at hbatch; simp at hbatch
      | ok rw1 =>
          obtain ⟨r, w1⟩ := rw1
          rw [hsingle] at hbatch
          dsimp only at hbatch
          have hticker : ({ a with ticker := t } : FetchArgs).ticker = t := rfl
          have hagreet : tickerAgrees t w w0 := hagree t (List.mem_cons_self t rest)
          have hcongr := runProviders_congr ps { a with ticker := t }
            (effInterval { a with ticker := t }) w w0 now (hticker ▸ hagreet)
          rw [show runProviders ps { a with ticker := t }
              (effInterval { a with ticker := t }) w now =
              getLatestCandles { a with ticker := t } ps w now from rfl, hsingle] at hcongr
          rcases hcongr with ⟨e, he, _⟩ | ⟨r0, wx, wx', hx, hx', _⟩
          · exact absurd he (by simp)
          · have hr0 : r0 = r ∧ wx = w1 := by
              have := hx
              simp only [Except.ok.injEq, Prod.mk.injEq] at this
              exact ⟨this.1.symm, this.2.symm⟩
            have hsingle0 : getLatestCandles { a with ticker := t } ps w0 now =
                .ok (r, wx') := by
              rw [show getLatestCandles { a with ticker := t } ps w0 now =
                runProviders ps { a with ticker := t }
                  (effInterval { a with ticker := t }) w0 now from rfl, hx', hr0.1]
            have hframe : preservesOther t w w1 := by
              have := runProviders_frame ps { a with ticker := t }
                (effInterval { a with ticker := t }) w now r w1 hsingle
              exact hticker ▸ this
            have hnodupH' : (rest.map asciiUpper).Nodup := by
              simp only [List.map_cons, List.nodup_cons] at hnodupH
              exact hnodupH.2
            have hnodupD' : (rest.map (fun s => asciiUpper (replaceSlash s))).Nodup := by
              simp only [List.map_cons, List.nodup_cons] at hnodupD
              exact hnodupD.2
            have hneH : ∀ u ∈ rest, ¬(asciiUpper u = asciiUpper t) := by
              intro u hu hcontra
              simp only [List.map_cons, List.nodup_cons] at hnodupH
              exact hnodupH.1 (hcontra ▸ List.mem_map_of_mem asciiUpper hu)
            have hneD : ∀ u ∈ rest,
                ¬(asciiUpper (replaceSlash u) = asciiUpper (replaceSlash t)) := by
              intro u hu hcontra
              simp only [List.map_cons, List.nodup_cons] at hnodupD
              exact hnodupD.1
                (hcontra ▸ List.mem_map_of_mem (fun s => asciiUpper (replaceSlash s)) hu)
            have htrest : ¬(t ∈ rest) := by
              intro hcontra
              exact hneH t hcontra rfl
            have hagree' : ∀ u ∈ rest, tickerAgrees u w1 w0 := by
              intro u hu
              exact tickerAgrees_trans
                (preservesOther_agrees hframe (hneH u hu) (hneD u hu))
                (hagree u (List.mem_cons_of_mem t hu))
            obtain ⟨ihm, ihacc⟩ :=
              ih (insertA t r.table acc) w1 m wf hagree' hnodupH' hnodupD' hbatch
            constructor
            · intro u hu
              rcases List.mem_cons.mp hu with rfl | hurest
              · refine ⟨r, wx', hsingle0, ?_⟩
                rw [ihacc u htrest]
                exact lookupA_insertA_same ..
              · exact ihm u hurest
            · intro u hu
              have hut : ¬(u = t) := fun hcontra => hu (hcontra ▸ List.mem_cons_self t rest)
              have hurest : ¬(u ∈ rest) := fun hcontra => hu (List.mem_cons_of_mem t hcontra)
              rw [ihacc u hurest]
              exact lookupA_insertA_other _ _ _ _ hut

/-- Claim C9: a batch fetch returns one entry per requested ticker whose value
equals the corresponding single-instrument fetch on the initial world, and
nothing else; in particular one ticker resolving to the empty table leaves
every other ticker's entry untouched, since each entry is exactly its own
single fetch. Distinctness of the normalized ticker keys keeps the per-ticker
cache keys disjoint. -/
theorem claim_C9_batch_isolation (tickers : List String) (a : FetchArgs)
    (ps : List ProviderSpec) (w0 : World) (now : Int) (m : List (String × Table)) (wf : World)
    (hnodupH : (tickers.map asciiUpper).Nodup)
    (hnodupD : (tickers.map (fun s => asciiUpper (replaceSlash s))).Nodup)
    (hbatch : getCandlesBatch tickers a ps w0 now = .ok (m, wf)) :
    (∀ t ∈ tickers, ∃ r w1, getLatestCandles { a with ticker := t } ps w0 now = .ok (r, w1) ∧
      lookupA t m = some r.table) ∧
    (∀ t, ¬(t ∈ tickers) → lookupA t m = none) := by
  obtain ⟨h1, h2⟩ := batch_isolation_aux a ps w0 now tickers [] w0 m wf
    (fun u _ => tickerAgrees_refl u w0) hnodupH hnodupD hbatch
  exact ⟨h1, fun t ht => h2 t ht⟩

/-! ## Claims C6 and C7: the token bucket -/

/-- Claim C6: for a configured positive requests-per-minute value the bucket
is created with capacity exactly R (hence at least 1) and refill rate R/60
tokens per second; one acquire pass consumes a token when one is available
after refilling, and otherwise sleeps for a bounded duration (between 0.05
and 5 seconds) computed as the minimal wait after which a token exists; the
step is total - it either acquires or sleeps, never raising. -/
theorem claim_C6_token_bucket :
    (∀ (rpm : Int) (now : ℚ), 0 < rpm →
      (bucketFor rpm now).capacity = (rpm : ℚ) ∧ 1 ≤ (bucketFor rpm now).capacity ∧
        (bucketFor rpm now).refillRate = (rpm : ℚ) / 60)
    ∧ (∀ (b : Bucket) (now : ℚ),
        (1 ≤ (refillAt b now).tokens →
          acquireStep b now =
            .acquired { refillAt b now with tokens := (refillAt b now).tokens - 1 })
        ∧ (¬(1 ≤ (refillAt b now).tokens) → ∃ d,
            acquireStep b now = .sleep d (refillAt b now) ∧ 1 / 20 ≤ d ∧ d ≤ 5 ∧
            (0 < (refillAt b now).refillRate →
              (refillAt b now).tokens +
                ((1 - (refillAt b now).tokens) / (refillAt b now).refillRate) *
                  (refillAt b now).refillRate = 1 ∧
              ∀ s : ℚ, 1 ≤ (refillAt b now).tokens + s * (refillAt b now).refillRate →
                (1 - (refillAt b now).tokens) / (refillAt b now).refillRate ≤ s))
        ∧ ((∃ b1, acquireStep b now = .acquired b1) ∨ ∃ d b1, acquireStep b now = .sleep d b1)) := by
  constructor
  · intro rpm now hrpm
    have hcast : (1 : ℚ) ≤ (rpm : ℚ) := by
      have : (1 : Int) ≤ rpm := hrpm
      exact_mod_cast this
    have hcap : max ((rpm : ℚ)) 1 = (rpm : ℚ) := max_eq_left hcast
    have hrate : (0 : ℚ) < (rpm : ℚ) / 60 := by positivity
    refine ⟨?_, ?_, ?_⟩
    · simp [bucketFor, hcap]
    · simp [bucketFor, hcap, hcast]
    · simp [bucketFor, hrpm, if_pos hrate]
  · intro b now
    refine ⟨?_, ?_, ?_⟩
    · intro htok
      simp [acquireStep, htok]
    · intro htok
      refine ⟨min (max (if 0 < (refillAt b now).refillRate then
          (1 - (refillAt b now).tokens) / (refillAt b now).refillRate else 1) (1 / 20)) 5,
        ?_, ?_, ?_, ?_⟩
      · simp [acquireStep, htok]
      · exact le_min (le_max_right _ _) (by norm_num)
      · exact min_le_right _ _
      · intro hrate
        refine ⟨div_mul_cancel₀ _ (ne_of_gt hrate) ▸ by ring_nf, ?_⟩
        intro s hs
        rw [div_le_iff₀ hrate]
        linarith
    · by_cases htok : 1 ≤ (refillAt b now).tokens
      · exact Or.inl ⟨{ refillAt b now with tokens := (refillAt b now).tokens - 1 },
          by simp [acquireStep, htok]⟩
      · exact Or.inr ⟨min (max (if 0 < (refillAt b now).refillRate then
            (1 - (refillAt b now).tokens) / (refillAt b now).refillRate else 1) (1 / 20)) 5,
          refillAt b now, by simp [acquireStep, htok]⟩

theorem runAcquires_count_le (times : List ℚ) : ∀ (b : Bucket) (hi : ℚ),
    List.Chain (· ≤ ·) b.updatedAt times →
    (∀ t ∈ times, t ≤ hi) →
    0 ≤ b.tokens → 0 ≤ b.refillRate → 0 ≤ b.capacity → b.updatedAt ≤ hi →
    ((runAcquires b times).2 : ℚ) ≤ b.tokens + (hi - b.updatedAt) * b.refillRate := by
  induction times with
  | nil =>
      intro b hi _ _ htok hrate _ hupd
      simp only [runAcquires, Nat.cast_zero]
      nlinarith
  | cons t ts ih =>
      intro b hi hchain hhi htok hrate hcap hupd
      rw [List.chain_cons] at hchain
      obtain ⟨hut, hchain'⟩ := hchain
      have hthi : t ≤ hi := hhi t (List.mem_cons_self t ts)
      have hts : ∀ u ∈ ts, u ≤ hi := fun u hu => hhi u (List.mem_cons_of_mem t hu)
      have hb1cap : (refillAt b t).capacity = b.capacity := by
        simp only [refillAt]
        split <;> rfl
      have hb1rate : (refillAt b t).refillRate = b.refillRate := by
        simp only [refillAt]
        split <;> rfl
      have hb1upd : (refillAt b t).updatedAt = t := by
        simp only [refillAt]
        split <;> rfl
      have hb1le : (refillAt b t).tokens ≤ b.tokens + (t - b.updatedAt) * b.refillRate := by
        simp only [refillAt]
        split
        · exact min_le_right _ _
        · nlinarith
      have hb1pos : 0 ≤ (refillAt b t).tokens := by
        simp only [refillAt]
        split
        · rename_i helapsed
          refine le_min hcap ?_
          nlinarith [le_of_lt helapsed]
        · exact htok
      have hsplit : (t - b.updatedAt) * b.refillRate + (hi - t) * b.refillRate =
          (hi - b.updatedAt) * b.refillRate := by ring
      by_cases hready : 1 ≤ (refillAt b t).tokens
      · set b2 : Bucket := { refillAt b t with tokens := (refillAt b t).tokens - 1 } with hb2
        have hstep : acquireStep b t = .acquired b2 := by
          simp [acquireStep, hready, hb2]
        have hb2tok : b2.tokens = (refillAt b t).tokens - 1 := rfl
        have hb2rate : b2.refillRate = (refillAt b t).refillRate := rfl
        have hb2cap : b2.capacity = (refillAt b t).capacity := rfl
        have hb2upd : b2.updatedAt = (refillAt b t).updatedAt := rfl
        have hrec := ih b2 hi
          (by rw [hb2upd, hb1upd]; exact hchain') hts
          (by rw [hb2tok]; linarith)
          (by rw [hb2rate, hb1rate]; exact hrate)
          (by rw [hb2cap, hb1cap]; exact hcap)
          (by rw [hb2upd, hb1upd]; exact hthi)
        rw [hb2tok, hb2rate, hb2upd, hb1rate, hb1upd] at hrec
        simp only [runAcquires, hstep]
        push_cast
        linarith
      · set b1 : Bucket := refillAt b t with hb1
        have hstep : acquireStep b t = .sleep (min (max (if 0 < b1.refillRate then
            (1 - b1.tokens) / b1.refillRate else 1) (1 / 20)) 5) b1 := by
          simp [acquireStep, hready, hb1]
        have hrec := ih b1 hi
          (by rw [hb1, hb1upd]; exact hchain') hts
          (by rw [hb1]; exact hb1pos)
          (by rw [hb1, hb1rate]; exact hrate)
          (by rw [hb1, hb1cap]; exact hcap)
          (by rw [hb1, hb1upd]; exact hthi)
        rw [hb1, hb1rate, hb1upd] at hrec
        simp only [runAcquires, hstep]
        rw [hb1]
        linarith

/-- Claim C7: starting from a fresh bucket configured at R requests per
minute, any sequence of acquire passes at nondecreasing instants within a
window of E seconds consumes at most capacity + E * R/60 tokens, so K
consumed tokens force the window to span at least (K - capacity)/(R/60)
seconds. -/
theorem claim_C7_rate_lower_bound (rpm : Int) (t0 E : ℚ) (times : List ℚ) (K : Nat)
    (hrpm : 0 < rpm) (hE : 0 ≤ E)
    (hchain : List.Chain (· ≤ ·) t0 times)
    (hhi : ∀ t ∈ times, t ≤ t0 + E)
    (hcount : (runAcquires (bucketFor rpm t0) times).2 = K) :
    ((K : ℚ) - (bucketFor rpm t0).capacity) / ((rpm : ℚ) / 60) ≤ E := by
  have hcast : (1 : ℚ) ≤ (rpm : ℚ) := by
    have : (1 : Int) ≤ rpm := hrpm
    exact_mod_cast this
  have hrate : (0 : ℚ) < (rpm : ℚ) / 60 := by positivity
  have hb : bucketFor rpm t0 =
      { capacity := max ((rpm : ℚ)) 1, tokens := max ((rpm : ℚ)) 1,
        refillRate := (rpm : ℚ) / 60, updatedAt := t0 } := by
    simp [bucketFor, hrpm, if_pos hrate]
  have hinv := runAcquires_count_le times (bucketFor rpm t0) (t0 + E)
    (by rw [hb]; exact hchain) hhi (by rw [hb]; dsimp only; positivity)
    (by rw [hb]; dsimp only; positivity) (by rw [hb]; dsimp only; positivity)
    (by rw [hb]; dsimp only; linarith)
  rw [hcount] at hinv
  rw [hb] at hinv ⊢
  dsimp only at hinv ⊢
  rw [div_le_iff₀ hrate]
  linarith

/-! ## Claim C8: the provider resolver -/

/-- Deduplicate a provider list by name, keeping first occurrences. -/
def dedupByNameFirst : List RProvider → List RProvider
  | [] => []
  | p :: ps => p :: (dedupByNameFirst ps).filter (fun q => !(q.name == p.name))

theorem dedup_filter_comm (nm : String) : ∀ ps : List RProvider,
    (dedupByNameFirst ps).filter (fun q => !(q.name == nm)) =
      dedupByNameFirst (ps.filter (fun q => !(q.name == nm))) := by
  intro ps
  induction ps with
  | nil => rfl
  | cons p ps ih =>
      by_cases hp : p.name = nm
      · have hb : (p.name == nm) = true := by simp [hp]
        simp only [dedupByNameFirst, List.filter_cons, List.filter_filter, hb, Bool.not_true,
          Bool.false_eq_true, if_false]
        rw [← ih]
        refine List.filter_congr ?_
        intro q _
        rw [hp]
        cases hq : q.name == nm <;> simp [hq]
      · have hb : (p.name == nm) = false := beq_false_of_ne hp
        simp only [dedupByNameFirst, List.filter_cons, List.filter_filter, hb, Bool.not_false,
          if_true]
        rw [← ih]
        congr 1
        rw [List.filter_filter]
        refine List.filter_congr ?_
        intro q _
        cases h1 : q.name == nm <;> cases h2 : q.name == p.name <;> simp [h1, h2]

/-- Modelled from the spec: with an explicit ordered provider-name list, the
resolver yields exactly the registry providers named in the list, in caller
order, unknown names skipped, providers not supporting the interval removed,
without duplicates (first occurrence kept). -/
def specResolveExplicit (registry : List RProvider) (interval : String) (req : List String) :
    List RProvider :=
  dedupByNameFirst
    ((req.filterMap (lookupByName registry)).filter (fun p => supportsP p interval))

/-- The inner spine of addRequested: the providers actually appended, given
the providers already present. -/
def addMissing (registry : List RProvider) (interval : String) (seen : List RProvider) :
    List String → List RProvider
  | [] => []
  | n :: ns =>
      match lookupByName registry n with
      | none => addMissing registry interval seen ns
      | some p =>
          if supportsP p interval && !hasName seen p.name
          then p :: addMissing registry interval (seen ++ [p]) ns
          else addMissing registry interval seen ns

theorem hasName_append (l1 l2 : List RProvider) (nm : String) :
    hasName (l1 ++ l2) nm = (hasName l1 nm || hasName l2 nm) := by
  simp [hasName, List.any_append]

theorem addRequested_eq_addMissing (registry : List RProvider) (interval : String) :
    ∀ (names : List String) (acc : List RProvider),
    addRequested registry interval names acc = acc ++ addMissing registry interval acc names := by
  intro names
  induction names with
  | nil =>
      intro acc
      simp [addRequested, addMissing]
  | cons n ns ih =>
      intro acc
      simp only [addRequested, addMissing]
      cases hl : lookupByName registry n with
      | none => exact ih acc
      | some p =>
          simp only [maybeAdd]
          by_cases hcond : (supportsP p interval && !hasName acc p.name) = true
          · rw [if_pos hcond, if_pos hcond, ih (acc ++ [p]), List.append_assoc]
            rfl
          · rw [if_neg hcond, if_neg hcond]
            exact ih acc

theorem addMissing_eq_dedup (registry : List RProvider) (interval : String) :
    ∀ (names : List String) (seen : List RProvider),
    addMissing registry interval seen names =
      dedupByNameFirst (((names.filterMap (lookupByName registry)).filter
        (fun p => supportsP p interval)).filter (fun p => !hasName seen p.name)) := by
  intro names
  induction names with
  | nil =>
      intro seen
      simp [addMissing, dedupByNameFirst]
  | cons n ns ih =>
      intro seen
      simp only [addMissing, List.filterMap_cons]
      cases hl : lookupByName registry n with
      | none => exact ih seen
      | some p =>
          dsimp only
          by_cases hsup : supportsP p interval = true
          · by_cases hseen : hasName seen p.name = true
            · have hcond : ¬((supportsP p interval && !hasName seen p.name) = true) := by
                simp [hsup, hseen]
              rw [if_neg hcond, List.filter_cons, if_pos (by simpa using hsup),
                List.filter_cons, if_neg (by simp [hseen])]
              exact ih seen
            · have hseenf : hasName seen p.name = false := by
                cases hval : hasName seen p.name
                · rfl
                · exact absurd hval hseen
              have hcond : (supportsP p interval && !hasName seen p.name) = true := by
                simp [hsup, hseenf]
              rw [if_pos hcond, List.filter_cons, if_pos (by simpa using hsup),
                List.filter_cons, if_pos (by simp [hseenf])]
              simp only [dedupByNameFirst]
              rw [dedup_filter_comm]
              rw [ih (seen ++ [p])]
              have hstep1 : List.filter (fun q => !(q.name == p.name))
                  (List.filter (fun q => !hasName seen q.name)
                    (List.filter (fun q => supportsP q interval)
                      (List.filterMap (lookupByName registry) ns))) =
                  List.filter (fun q => !(q.name == p.name) && !hasName seen q.name)
                    (List.filter (fun q => supportsP q interval)
                      (List.filterMap (lookupByName registry) ns)) :=
                List.filter_filter _ _
              rw [hstep1]
              have hstep2 : List.filter (fun q => !hasName (seen ++ [p]) q.name)
                  (List.filter (fun q => supportsP q interval)
                    (List.filterMap (lookupByName registry) ns)) =
                  List.filter (fun q => !(q.name == p.name) && !hasName seen q.name)
                    (List.filter (fun q => supportsP q interval)
                      (List.filterMap (lookupByName registry) ns)) := by
                refine List.filter_congr ?_
                intro q _
                by_cases hqp : q.name = p.name
                · simp [hasName_append, hasName, hqp]
                · have hqp2 : ¬(p.name = q.name) := fun hc => hqp hc.symm
                  have hb1 : (q.name == p.name) = false := beq_false_of_ne hqp
                  have hb2 : (p.name == q.name) = false := beq_false_of_ne hqp2
                  simp [hasName_append, hasName, hb1, hb2]
              rw [hstep2]
          · have hcond : ¬((supportsP p interval && !hasName seen p.name) = true) := by
              simp [hsup]
            rw [if_neg hcond, List.filter_cons, if_neg (by simpa using hsup)]
            exact ih seen

theorem addRequested_spec (registry : List RProvider) (interval : String) (req : List String) :
    addRequested registry interval req [] = specResolveExplicit registry interval req := by
  rw [addRequested_eq_addMissing, addMissing_eq_dedup]
  simp only [List.nil_append, specResolveExplicit]
  congr 1
  refine (List.filter_eq_self.mpr ?_)
  intro p _
  simp [hasName]

/-- Claim C8: with an explicit non-empty provider-name list the resolver
returns exactly the registry providers named, in caller order, unknown names
skipped, interval-unsupported providers removed, without duplicates; for every
input the result is non-empty, falling back to the single universal
YFinanceProvider, which supports every interval. -/
theorem claim_C8_resolver (registry : List RProvider) (env : ResolveEnv)
    (ticker interval : String) (req : List String) (hreq : ¬(req = [])) :
    (resolveProviders registry env ticker interval (some req) =
      (if (specResolveExplicit registry interval req).isEmpty then [defaultYFinance]
       else specResolveExplicit registry interval req))
    ∧ (∀ requested, ¬(resolveProviders registry env ticker interval requested = []))
    ∧ (∀ j, supportsP defaultYFinance j = true) := by
  refine ⟨?_, ?_, fun j => rfl⟩
  · have hne : (!req.isEmpty) = true := by
      cases req with
      | nil => exact absurd rfl hreq
      | cons x xs => rfl
    have hcore : resolveCore registry env ticker interval (some req) =
        addRequested registry interval req [] := by
      simp only [resolveCore, hne, if_true]
    simp only [resolveProviders, hcore, addRequested_spec]
  · intro requested
    simp only [resolveProviders]
    split
    · simp
    · rename_i hord
      intro hcontra
      rw [hcontra] at hord
      simp at hord

/-! ## Concrete fixtures for the closed theorems -/

/-- Default single-instrument fetch arguments: daily candles for AAPL. -/
def exArgs : FetchArgs := { ticker := "AAPL" }

/-- Fetch arguments whose [start, end] range lies beyond every cached row. -/
def exClipArgs : FetchArgs := { ticker := "AAPL", start? := some 100, end? := some 259200 }

/-- An empty world with the hot tier enabled. -/
def exW0 : World := { hotEnabled := true, parquetOk := true, cfg := {}, hot := [], disk := [] }

/-- A two-column cached table at instant 0. -/
def exCachedTbl : Table := [(0, [some 1, some 2])]

/-- A world whose hot tier holds exCachedTbl for provider p, unexpired. -/
def exHotWorld : World :=
  { hotEnabled := true, parquetOk := true, cfg := {},
    hot := [(makeHotKey "p" "AAPL" "1d", { table := exCachedTbl, expiresAt := 2000000 })],
    disk := [] }

/-- A tier-3 entry whose parquet artifact exists but cannot be deserialized,
with fresh metadata and no csv fallback. -/
def exCorruptEntry : DiskEntry := { parquet := some none, csv := none, meta := some (some 999999) }

/-- A world holding only the corrupted tier-3 artifact. -/
def exCorruptWorld : World :=
  { hotEnabled := false, parquetOk := true, cfg := {},
    hot := [], disk := [(makeDiskKey "AAPL" "1d" "p", exCorruptEntry)] }

/-- A provider whose fetch raises ProviderError. -/
def exErrP : ProviderSpec := { name := "p", fetch := .providerError }

/-- A provider returning one fresh row whose first column is NaN. -/
def exNaNP : ProviderSpec := { name := "p", fetch := .ok [(0, [none, some 7])] }

/-- A provider returning a single stale bar (instant 0). -/
def exOldP : ProviderSpec := { name := "p", fetch := .ok [(0, [some 1])] }

/-- A provider returning a single near-now bar. -/
def exFreshP : ProviderSpec := { name := "p", fetch := .ok [(999000, [some 1])] }

/-- A provider succeeding with zero rows. -/
def exEmptyP : ProviderSpec := { name := "q", fetch := .ok [] }

/-- The world after fetching exOldP once at instant 1000000 from exW0. -/
def exC5World1 : World :=
  { hotEnabled := true, parquetOk := true, cfg := {},
    hot := [(makeHotKey "p" "AAPL" "1d", { table := [(0, [some 1])], expiresAt := 1003600 })],
    disk := [(makeDiskKey "AAPL" "1d" "p",
      { parquet := some (some [(0, [some 1])]), csv := none, meta := some (some 1000000) })] }

/-! ## Claim theorems: closed evaluations and witnesses -/

/-- Claim C1 witness: one failing provider, empty caches - the orchestrator
returns the empty table, no source tag, no exception. -/
theorem claim_C1_witness :
    getLatestCandles exArgs [exErrP] exW0 1000000 =
      .ok ({ table := [], source := none, calls := ["p"] }, exW0) := by
  refine claim_C1_exhaustion_empty [exErrP] exArgs exW0 1000000 ?_ ?_
  · intro p hp
    rw [List.mem_singleton] at hp
    subst hp
    exact ⟨rfl, rfl⟩
  · intro p hp
    rw [List.mem_singleton] at hp
    subst hp
    rfl

/-- Claim C2: the code, not the claim, is at fault - when the primary binary
artifact exists but cannot be deserialized and no text fallback exists,
DataCache._read_dataframe raises FileNotFoundError (its csv fallback tests the
parquet path's own suffix), the uncaught load call in get_latest_candles
escapes to the caller, and the lookup is not treated as a miss. -/
theorem claim_C2_corrupt_artifact_raises :
    lookupA (makeDiskKey "AAPL" "1d" "p") exCorruptWorld.disk = some exCorruptEntry
    ∧ exCorruptEntry.parquet = some none ∧ exCorruptEntry.csv = none
    ∧ diskIsStale exCorruptEntry (selectCacheTtl "1d" "p") 1000000 = false
    ∧ diskLoad exCorruptWorld "AAPL" "1d" "p" (selectCacheTtl "1d" "p") 1000000 =
        .error .fileNotFound
    ∧ getLatestCandles exArgs [exOldP] exCorruptWorld 1000000 = .error .fileNotFound :=
  ⟨rfl, rfl, rfl, rfl, rfl, rfl⟩

/-- Claim C3 counterexample: the provider raises and a non-empty cached table
exists, yet the orchestrator returns an empty table (clipped away by the
requested range), refuting the claim's "not an empty table". -/
theorem claim_C3_counterexample :
    exErrP.fetch = .providerError
    ∧ lookupA (makeHotKey "p" "AAPL" "1d") exHotWorld.hot =
        some { table := exCachedTbl, expiresAt := 2000000 }
    ∧ exCachedTbl.isEmpty = false
    ∧ (getLatestCandles exClipArgs [exErrP] exHotWorld 1000000).map
        (fun rw : FetchResult × World => rw.1) =
      .ok { table := [], source := some "p", calls := ["p"] } :=
  ⟨rfl, rfl, rfl, rfl⟩

/-- Claim C3 witness: the amended degrade behaviour at a concrete input - the
cached table comes back clipped and tagged with the failing provider's name. -/
theorem claim_C3_witness :
    runProviders [exErrP] exArgs "1d" exHotWorld 1000000 =
      .ok ({ table := clipTable exCachedTbl exArgs.start? exArgs.end?, source := some "p",
             calls := ["p"] }, exHotWorld) :=
  (claim_C3_degrade_amended exErrP [] exArgs "1d" exHotWorld 1000000 (some exCachedTbl)
    exHotWorld (Or.inl rfl) rfl).1 exCachedTbl rfl rfl

/-- Claim C4 counterexample: the fresh fetch's row holds a null in the first
column; the stored row keeps the previously cached value there, so the most
recently written row does not win wholesale. -/
theorem claim_C4_counterexample :
    exNaNP.fetch = .ok [(0, [none, some 7])]
    ∧ lookupA (makeHotKey "p" "AAPL" "1d") exHotWorld.hot =
        some { table := exCachedTbl, expiresAt := 2000000 }
    ∧ (getLatestCandles exArgs [exNaNP] exHotWorld 1000000).map
        (fun rw : FetchResult × World => rw.1.table) = .ok [(0, [some 1, some 7])]
    ∧ ¬([((0 : Int), [(some 1 : Cell), some 7])] = [((0 : Int), [(none : Cell), some 7])]) :=
  ⟨rfl, rfl, rfl, by simp⟩

/-- Claim C4 witness: the amended merge row rule evaluated at the concrete
conflict - fresh non-null wins per column, cached survives under a fresh null. -/
theorem claim_C4_witness :
    strictInc (mergeCandidate (some exCachedTbl) [(0, [none, some 7])]) = true
    ∧ findRow 0 (mergeCandidate (some exCachedTbl) [(0, [none, some 7])]) =
        some [some 1, some 7] := by
  constructor
  · exact claim_C4_merge_amended.1 (some exCachedTbl) [(0, [none, some 7])]
  · rw [claim_C4_merge_amended.2.2.2.1 exCachedTbl [(0, [none, some 7])] rfl rfl 0]
    rfl

/-- Claim C5 counterexample: a second call within every TTL window (the hot
entry expires at 1003600, the tier-3 metadata is seconds old) still issues a
provider call, because the stored table's last instant fails the freshness
heuristic. -/
theorem claim_C5_counterexample :
    getLatestCandles exArgs [exOldP] exW0 1000000 =
      .ok ({ table := [(0, [some 1])], source := some "p", calls := ["p"] }, exC5World1)
    ∧ (getLatestCandles exArgs [exOldP] exC5World1 1000000).map
        (fun rw : FetchResult × World => rw.1.calls) = .ok ["p"] :=
  ⟨rfl, rfl⟩

/-- Claim C5 witness: with a table passing the freshness heuristic, the second
call issues zero provider calls and returns the identical table. -/
theorem claim_C5_witness :
    ∃ r1 w1, getLatestCandles exArgs [exFreshP] exW0 1000000 = .ok (r1, w1) ∧
      r1.calls = ["p"] ∧
      ∃ r2 w2, getLatestCandles exArgs [exFreshP] w1 1000500 = .ok (r2, w2) ∧
        r2.calls = [] ∧ r2.table = r1.table ∧ r2.source = r1.source :=
  claim_C5_idempotent_amended exFreshP [] exArgs exW0 1000000 1000500 [(999000, [some 1])]
    none exW0 rfl rfl rfl rfl rfl rfl (by decide) (by decide) rfl

/-- Claim C6 witness: a bucket configured at 30 requests per minute has
capacity 30 and refill rate one half token per second, and the acquire step is
total at a concrete state. -/
theorem claim_C6_witness :
    (bucketFor 30 0).capacity = (30 : ℚ)
    ∧ (bucketFor 30 0).refillRate = (30 : ℚ) / 60
    ∧ ((∃ b1, acquireStep (bucketFor 30 0) 0 = .acquired b1) ∨
        ∃ d b1, acquireStep (bucketFor 30 0) 0 = .sleep d b1) :=
  ⟨(claim_C6_token_bucket.1 30 0 (by norm_num)).1,
   (claim_C6_token_bucket.1 30 0 (by norm_num)).2.2,
   (claim_C6_token_bucket.2 (bucketFor 30 0) 0).2.2⟩

/-- Claim C7 witness: the lower bound instantiated for a fresh 30-rpm bucket
over an empty acquire trace in a zero-length window. -/
theorem claim_C7_witness :
    ((0 : ℚ) - (bucketFor 30 0).capacity) / ((30 : ℚ) / 60) ≤ 0 :=
  claim_C7_rate_lower_bound 30 0 0 [] 0 (by norm_num) le_rfl List.Chain.nil
    (by intro t ht; cases ht) rfl

/-- The registry of the default providers (tushare, akshare, akshare_us and
yfinance all available), in default_providers order. -/
def exRegistry : List RProvider :=
  [{ name := "tushare", kind := .only tushareIntervals },
   { name := "akshare", kind := .only akshareIntervals },
   { name := "akshare_us", kind := .only akshareUsIntervals },
   { name := "yfinance", kind := .all }]

/-- Claim C8 witness: an explicit list with a duplicate and an unknown name
resolves to the named registry providers in caller order, deduplicated, and
that equals the spec-side description. -/
theorem claim_C8_witness :
    specResolveExplicit exRegistry "1d" ["akshare", "bogus", "yfinance", "akshare"] =
      [{ name := "akshare", kind := .only akshareIntervals },
       { name := "yfinance", kind := .all }]
    ∧ (resolveProviders exRegistry {} "600519.SH" "1d"
        (some ["akshare", "bogus", "yfinance", "akshare"]) =
      (if (specResolveExplicit exRegistry "1d" ["akshare", "bogus", "yfinance", "akshare"]).isEmpty
       then [defaultYFinance]
       else specResolveExplicit exRegistry "1d" ["akshare", "bogus", "yfinance", "akshare"]))
    ∧ (∀ requested, ¬(resolveProviders exRegistry {} "600519.SH" "1d" requested = []))
    ∧ (∀ j, supportsP defaultYFinance j = true) :=
  ⟨rfl,
   (claim_C8_resolver exRegistry {} "600519.SH" "1d" ["akshare", "bogus", "yfinance", "akshare"]
     (by simp)).1,
   (claim_C8_resolver exRegistry {} "600519.SH" "1d" ["akshare", "bogus", "yfinance", "akshare"]
     (by simp)).2.1,
   (claim_C8_resolver exRegistry {} "600519.SH" "1d" ["akshare", "bogus", "yfinance", "akshare"]
     (by simp)).2.2⟩

/-- The world after the batch fetch of AAPL and MSFT through exFreshP. -/
def exC9WorldF : World :=
  { hotEnabled := true, parquetOk := true, cfg := {},
    hot := [(makeHotKey "p" "MSFT" "1d", { table := [(999000, [some 1])], expiresAt := 1003600 }),
            (makeHotKey "p" "AAPL" "1d", { table := [(999000, [some 1])], expiresAt := 1003600 })],
    disk := [(makeDiskKey "MSFT" "1d" "p",
      { parquet := some (some [(999000, [some 1])]), csv := none, meta := some (some 1000000) }),
      (makeDiskKey "AAPL" "1d" "p",
      { parquet := some (some [(999000, [some 1])]), csv := none, meta := some (some 1000000) })] }

/-- Claim C9 witness: a two-ticker batch maps each ticker to its own single
fetch result and holds nothing else. -/
theorem claim_C9_witness :
    (∀ t ∈ ["AAPL", "MSFT"], ∃ r w1,
      getLatestCandles { exArgs with ticker := t } [exFreshP] exW0 1000000 = .ok (r, w1) ∧
      lookupA t [("MSFT", [((999000 : Int), [(some 1 : Cell)])]),
        ("AAPL", [((999000 : Int), [(some 1 : Cell)])])] = some r.table)
    ∧ (∀ t, ¬(t ∈ ["AAPL", "MSFT"]) →
        lookupA t [("MSFT", [((999000 : Int), [(some 1 : Cell)])]),
          ("AAPL", [((999000 : Int), [(some 1 : Cell)])])] = none) :=
  claim_C9_batch_isolation ["AAPL", "MSFT"] exArgs [exFreshP] exW0 1000000
    [("MSFT", [(999000, [some 1])]), ("AAPL", [(999000, [some 1])])] exC9WorldF
    (by decide) (by decide) rfl

/-- Claim C10 witness: the empty-frame stores are identities at a concrete
world, and a provider succeeding with zero rows makes the orchestrator move to
the next provider without writing anything. -/
theorem claim_C10_witness :
    diskStore exW0 "AAPL" "1d" [] "p" 1000000 = exW0
    ∧ hotStoreDf exW0 "p" "AAPL" "1d" [] 3600 1000000 = exW0
    ∧ (fetchPhase exEmptyP exArgs "1d" none exW0 1000000 = (none, exW0) ∧
       runProviders [exEmptyP, exFreshP] exArgs "1d" exW0 1000000 =
         (runProviders [exFreshP] exArgs "1d" exW0 1000000).map (consCalls "q")) :=
  ⟨claim_C10_no_empty_writes.1 exW0 "AAPL" "1d" "p" 1000000,
   claim_C10_no_empty_writes.2.1 exW0 "p" "AAPL" "1d" 3600 1000000,
   claim_C10_no_empty_writes.2.2 exEmptyP [exFreshP] exArgs "1d" exW0 1000000 none exW0 []
     rfl rfl rfl⟩

end StockAI
